import Mathlib

set_option autoImplicit false

/-!
Shallow embedding of the PromptVariablesTester core (src/app3.py and
src/best_of_n.py): the variable-definition parser, the combination
expander, the template renderer, the special-variable resolver, the
repeated-run (best-of-N) model-call loop and the session logger.

Conventions of the embedding:
* Python strings are modelled as `List Char` (`Str`).
* Python dicts (insertion ordered) are association lists; assignment is
  `insertKV` (update in place, or append for a new key).
* The filesystem is an explicit oracle `FS` (file read and directory
  listing); the model service is an oracle `Nat → Except Str Str`.
* The XML log document is modelled structurally (`LogDoc`): the
  XML serialize / re-parse round trip is treated as the identity on the
  structured document.
* Brace characters inside string literals are written with the escapes
  \x7b and \x7d.
-/

abbrev Str := List Char

/-- The character `\x7b` (opening curly brace). -/
def openBrace : Char := '\x7b'

/-- The character `\x7d` (closing curly brace). -/
def closeBrace : Char := '\x7d'

/-- Single-quote character, written by code point. -/
def squote : Char := Char.ofNat 39

/-- Double-quote character. -/
def dquote : Char := '"'

/-- Python `str.strip` whitespace class (ASCII part; the sources only ever
strip ASCII spaces). -/
def pySpace (c : Char) : Bool :=
  c = ' ' || c = '\t' || c = '\n' || c = '\r' || c = '\x0b' || c = '\x0c'

/-- Python `str.strip()`: drop leading and trailing whitespace. -/
def pyStrip (s : Str) : Str :=
  ((s.dropWhile pySpace).reverse.dropWhile pySpace).reverse

/-- Python `suffix in s`-style containment and `str.endswith`. -/
def endsWithL (s suffixStr : Str) : Bool :=
  suffixStr.reverse.isPrefixOf s.reverse

/-- Python `pat in s` (substring test). -/
def containsSub : Str → Str → Bool
  | [], pat => pat.isEmpty
  | c :: t, pat => pat.isPrefixOf (c :: t) || containsSub t pat

/-- Python `s.replace(pat, rep)`, fuelled so that the definition is
structurally recursive and computes inside the kernel.  Every step
consumes at least one character of `s`, so `fuel = s.length` (used by the
`replaceAll` wrapper) never runs out; `replaceAllF_congr` below proves
the fuel irrelevant beyond that bound. -/
def replaceAllF : Nat → Str → Str → Str → Str
  | _, [], _, _ => []
  | 0, c :: t, _, _ => c :: t
  | fuel + 1, c :: t, pat, rep =>
    if pat.isEmpty then c :: t
    else if pat.isPrefixOf (c :: t) then
      rep ++ replaceAllF fuel ((c :: t).drop pat.length) pat rep
    else c :: replaceAllF fuel t pat rep

/-- Python `s.replace(pat, rep)`: replace every non-overlapping occurrence,
scanning left to right.  (The sources only ever call it with a non-empty
pattern; for an empty pattern this model returns the string unchanged.) -/
def replaceAll (s pat rep : Str) : Str := replaceAllF s.length s pat rep

/-- Python `s.split(sep)` for a one-character separator (fuelled;
`splitChar` passes enough fuel): split at every separator, keeping
empty pieces. -/
def splitCharF (sep : Char) : Nat → Str → List Str
  | 0, s => [s]
  | fuel + 1, s =>
    match s.drop (s.takeWhile (fun c => c != sep)).length with
    | [] => [s.takeWhile (fun c => c != sep)]
    | _ :: r => s.takeWhile (fun c => c != sep) :: splitCharF sep fuel r

/-- Python `s.split(sep)` for a one-character separator. -/
def splitChar (sep : Char) (s : Str) : List Str := splitCharF sep s.length s

/-- `re.findall` for the placeholder pattern
`\x7b\x7b([^\x7d]+)\x7d\x7d`, fuelled (every step consumes at least one
character, so `fuel = s.length` suffices): scan left to right; at a
position starting with two opening braces take the maximal non-empty run
of non-closing-brace characters; if it is followed by two closing
braces, record the run and continue after the match, otherwise advance
one character.  (The character class cannot match a closing brace, so
the regex never backtracks into a shorter run; this scanner is exact.) -/
def findPlaceholdersF : Nat → Str → List Str
  | _, [] => []
  | _, [_] => []
  | 0, _ :: _ :: _ => []
  | fuel + 1, c :: c2 :: rest2 =>
    if c = openBrace ∧ c2 = openBrace then
      if (rest2.takeWhile (fun d => d != closeBrace)) ≠ [] ∧
         ((rest2.drop (rest2.takeWhile (fun d => d != closeBrace)).length).take 2 =
           [closeBrace, closeBrace]) then
        (rest2.takeWhile (fun d => d != closeBrace)) ::
          findPlaceholdersF fuel
            ((rest2.drop (rest2.takeWhile (fun d => d != closeBrace)).length).drop 2)
      else findPlaceholdersF fuel (c2 :: rest2)
    else findPlaceholdersF fuel (c2 :: rest2)

/-- `re.findall(r'\x7b\x7b([^\x7d]+)\x7d\x7d', s)`. -/
def findPlaceholders (s : Str) : List Str := findPlaceholdersF s.length s

/-- The template placeholder string `\x7b\x7b` ++ name ++ `\x7d\x7d`. -/
def holePat (n : Str) : Str :=
  openBrace :: openBrace :: (n ++ [closeBrace, closeBrace])

/-- The reserved companion-key suffix `_path`. -/
def pathSuffix : Str := "_path".toList

/-- The renderer sentinel prefix. -/
def undefinedMark (n : Str) : Str := "UNDEFINED_VARIABLE_".toList ++ n

/-! ## Association lists with Python-dict semantics -/

/-- Python dict assignment `m[k] = v`: update the existing entry in place,
or append a new one. -/
def insertKV {α : Type} (m : List (Str × α)) (k : Str) (v : α) : List (Str × α) :=
  match m with
  | [] => [(k, v)]
  | (k0, v0) :: rest => if k0 = k then (k0, v) :: rest else (k0, v0) :: insertKV rest k v

/-- Python dict lookup (first matching key). -/
def lookupC {α : Type} (m : List (Str × α)) (k : Str) : Option α :=
  match m with
  | [] => none
  | (k0, v0) :: rest => if k0 = k then some v0 else lookupC rest k

/-- Insert every pair of `entries` into `combo`, in order (the
`for var_name, value in fixed_vars.items(): combo[var_name] = value` loop). -/
def insertAllKV {α : Type} (combo : List (Str × α)) (entries : List (Str × α)) :
    List (Str × α) :=
  entries.foldl (fun c nv => insertKV c nv.1 nv.2) combo

/-! ## Parsed variable specifications (the values stored in the dict built by
`parse_variable_definitions`) -/

/-- A parsed variable value: either a plain string, or one of the special
`$$`-dicts (`\x7b'type': 'file', ...\x7d` and friends) built by the parser. -/
inductive VarValue where
  | str (s : Str)
  | file (path : Str)
  | dir (path : Str) (recursive : Bool)
  | list (elements : List Str)
  | results (varName : Str)
  | initialPrompt
deriving DecidableEq

/-! ## The definitions-string scanner
(`re.finditer(r'([a-zA-Z_][a-zA-Z0-9_]*)\s*=\s*([^,]+)(?:,|$)', ...)`) -/

/-- `[a-zA-Z_]`. -/
def isIdentStart (c : Char) : Bool := c.isAlpha || c = '_'

/-- `[a-zA-Z0-9_]`. -/
def isIdentChar (c : Char) : Bool := c.isAlphanum || c = '_'

/-- Try to match the definition regex at the head of `s`.  Returns the
name group, the (stripped) value group and the rest of the string after
the match (the `(?:,|$)` consumes a following comma).

The regex engine behaviour collapses to this: the name is the maximal
identifier run (a shorter run would have to be followed by `\s*=`, but the
next character is an identifier character, so backtracking never helps);
after optional spaces an `=` must follow; the value group together with
the `\s*` before it covers exactly the slice up to the next comma or the
end, and the match succeeds iff that slice is non-empty (the group is
stripped afterwards by the Python code in any case). -/
def tryMatchDef (s : Str) : Option (Str × Str × Str) :=
  match s with
  | [] => none
  | c :: t =>
    if isIdentStart c then
      match (t.dropWhile isIdentChar).dropWhile pySpace with
      | '=' :: u =>
        if u.takeWhile (fun d => d != ',') = [] then none
        else
          some (c :: t.takeWhile isIdentChar,
                pyStrip (u.takeWhile (fun d => d != ',')),
                match u.drop (u.takeWhile (fun d => d != ',')).length with
                | ',' :: r => r
                | r => r)
      | _ => none
    else none

theorem tryMatchDef_rest_lt (s n v r : Str) (h : tryMatchDef s = some (n, v, r)) :
    r.length < s.length := by
  match s with
  | [] => simp [tryMatchDef] at h
  | c :: t =>
    rw [tryMatchDef] at h
    split at h
    case isFalse => exact absurd h (by simp)
    split at h
    case h_2 => exact absurd h (by simp)
    rename_i u hm
    have hut : u.length < t.length + 1 := by
      have h1 : ((t.dropWhile isIdentChar).dropWhile pySpace).length ≤
          (t.dropWhile isIdentChar).length :=
        (List.dropWhile_suffix _).length_le
      have h2 : (t.dropWhile isIdentChar).length ≤ t.length :=
        (List.dropWhile_suffix _).length_le
      rw [hm] at h1
      simp only [List.length_cons] at h1
      omega
    split at h
    case isTrue => exact absurd h (by simp)
    rename_i hv
    have hvlen : 0 < (u.takeWhile (fun d => d != ',')).length := List.length_pos.mpr hv
    rw [Option.some.injEq] at h
    have hr : (match u.drop (u.takeWhile (fun d => d != ',')).length with
        | ',' :: r2 => r2
        | r2 => r2) = r := congrArg (fun p => p.2.2) h
    have hrle : r.length ≤ (u.drop (u.takeWhile (fun d => d != ',')).length).length := by
      split at hr
      · rename_i r2 heq
        rw [heq, ← hr]
        simp only [List.length_cons]
        omega
      · rw [← hr]
    have hdlen : (u.drop (u.takeWhile (fun d => d != ',')).length).length =
        u.length - (u.takeWhile (fun d => d != ',')).length := List.length_drop _ _
    simp only [List.length_cons]
    omega

/-- `re.finditer` over the whole definitions string (fuelled; by
`tryMatchDef_rest_lt` every step consumes at least one character, so
`fuel = s.length` suffices): try the pattern at every position; on a
match continue after it, otherwise advance one character. -/
def scanDefsF : Nat → Str → List (Str × Str)
  | _, [] => []
  | 0, _ :: _ => []
  | fuel + 1, c :: t =>
    match tryMatchDef (c :: t) with
    | some (n, v, r) => (n, v) :: scanDefsF fuel r
    | none => scanDefsF fuel t

/-- `re.finditer` of `parse_variable_definitions` over the whole
definitions string. -/
def scanDefs (s : Str) : List (Str × Str) := scanDefsF s.length s

/-! ## The `$$list(...)` payload (`json.loads` with comma-split fallback)

The payload handed to `json.loads` here can never contain a comma (the
value regex group is `[^,]+`), so the only JSON values that can actually
occur are zero- or one-element arrays and single scalars.  We model
`json.loads` restricted to arrays of strings and integers; every other
payload takes the fallback branch, which for a comma-free payload returns
the single stripped payload — exactly what the Python code produces both
when `json.loads` succeeds on a non-list value and when it raises.
(Arrays of floats and `\u` string escapes are outside this model.) -/

/-- JSON whitespace. -/
def jsWs (c : Char) : Bool := c = ' ' || c = '\t' || c = '\n' || c = '\r'

/-- JSON string escapes (without `\u`). -/
def jsonEscape (c : Char) : Option Char :=
  if c = dquote then some dquote
  else if c = '\\' then some '\\'
  else if c = '/' then some '/'
  else if c = 'n' then some '\n'
  else if c = 't' then some '\t'
  else if c = 'r' then some '\r'
  else if c = 'b' then some '\x08'
  else if c = 'f' then some '\x0c'
  else none

/-- Parse the body of a JSON string literal (after the opening quote),
returning the decoded characters and the rest after the closing quote. -/
def parseJsonStringBody : Nat → Str → Option (Str × Str)
  | _, [] => none
  | 0, _ :: _ => none
  | fuel + 1, c :: t =>
    if c = dquote then some ([], t)
    else if c = '\\' then
      match t with
      | [] => none
      | e :: t2 =>
        match jsonEscape e with
        | some d => (parseJsonStringBody fuel t2).map (fun p => (d :: p.1, p.2))
        | none => none
    else (parseJsonStringBody fuel t).map (fun p => (c :: p.1, p.2))

/-- Decimal value of a digit run. -/
def digitsToNat (ds : Str) : Nat := ds.foldl (fun a c => a * 10 + (c.toNat - 48)) 0

/-- Decimal rendering of a JSON integer (as `str` renders a Python int). -/
def intToStr (neg : Bool) (nv : Nat) : Str :=
  if neg ∧ nv ≠ 0 then '-' :: Nat.toDigits 10 nv else Nat.toDigits 10 nv

/-- Parse one JSON scalar (string or integer), returning its Python
`str` rendering and the rest. -/
def parseJsonScalar (fuel : Nat) (s : Str) : Option (Str × Str) :=
  match s with
  | [] => none
  | c :: t =>
    if c = dquote then parseJsonStringBody fuel t
    else
      match (if c = '-' then t else c :: t) with
      | [] => none
      | d :: u2 =>
        if d.isDigit then
          if ((d :: u2).takeWhile Char.isDigit).length > 1 ∧ d = '0' then none
          else some (intToStr (c = '-') (digitsToNat ((d :: u2).takeWhile Char.isDigit)),
                     (d :: u2).drop ((d :: u2).takeWhile Char.isDigit).length)
        else none

/-- Parse the items of a JSON array after the opening bracket (first item
onward), returning the rendered elements and the rest after `]`. -/
def parseJsonItems : Nat → Str → Option (List Str × Str)
  | 0, _ => none
  | fuel + 1, s =>
    match parseJsonScalar (fuel + 1) s with
    | none => none
    | some (e, rest) =>
      match rest.dropWhile jsWs with
      | ',' :: r2 =>
        match parseJsonItems fuel (r2.dropWhile jsWs) with
        | some (es, r3) => some (e :: es, r3)
        | none => none
      | ']' :: r2 => some ([e], r2)
      | _ => none

/-- `json.loads` restricted to arrays of scalars, requiring the whole
input to be consumed. -/
def parseJsonArrayOfScalars (s : Str) : Option (List Str) :=
  match s with
  | '[' :: r =>
    match r.dropWhile jsWs with
    | ']' :: rest => if rest.dropWhile jsWs = [] then some [] else none
    | r1 =>
      match parseJsonItems (s.length + 1) r1 with
      | some (es, rest) => if rest.dropWhile jsWs = [] then some es else none
      | none => none
  | _ => none

/-- The `$$list` payload handling: `json.loads` when it yields a list,
otherwise the comma-split-and-strip fallback (which, for the comma-free
payloads the scanner can produce, also covers the successful non-list
`json.loads` branch of the Python code). -/
def jsonListPayload (content : Str) : List Str :=
  match parseJsonArrayOfScalars content with
  | some es => es
  | none => (splitChar ',' content).map pyStrip

/-! ## Special-form sentinels -/

def ddStr : Str := "$$".toList
def ddFile : Str := "$$file(".toList
def ddDir : Str := "$$dir(".toList
def ddList : Str := "$$list(".toList
def ddResults : Str := "$$results(".toList
def ddInitial : Str := "$$initial_prompt(".toList
def cpStr : Str := ")".toList
def recTrueStr : Str := "recursive=True".toList

/-- Strip one layer of matching surrounding single or double quotes. -/
def stripQuotes (v : Str) : Str :=
  if (v.head? = some dquote ∧ endsWithL v [dquote]) ∨
     (v.head? = some squote ∧ endsWithL v [squote]) then
    (v.drop 1).dropLast
  else v

/-- The `$$dir(...)` payload: an optional `, params` part after the path;
`recursive` is true iff `recursive=True` occurs in the params. -/
def parseDirPayload (content : Str) : Str × Bool :=
  if containsSub content [','] then
    (pyStrip (content.takeWhile (fun d => d != ',')),
     containsSub (content.drop ((content.takeWhile (fun d => d != ',')).length + 1)) recTrueStr)
  else (content, false)

/-! ## The filesystem oracle and the generic expansion machinery

Both applications share the same expansion algorithm; they differ only in
how a parsed `VarValue` is dispatched into an iterating entry, a fixed
entry, or silently dropped.  `Disp`/`partitionVarsD`/`expandVarsD` factor
that shared structure; each namespace instantiates the dispatch with a
transcription of its own `if/elif` chain. -/

structure FS where
  read : Str → Option Str
  listDir : Str → Bool → List Str

/-- Resolve a directory reference: the discovered file paths, filtered to
the readable ones, each paired as (content, path) — mirroring the
parallel `file_contents` / `file_path_display` lists. -/
def resolveDir (fs : FS) (path : Str) (recursive : Bool) : List (Str × Str) :=
  (fs.listDir path recursive).filterMap (fun p => (fs.read p).map (fun c => (c, p)))

/-- How one parsed value contributes to expansion. -/
inductive Disp (α : Type) where
  | iter (pairs : List (α × α))
  | fixed (v : α)
  | drop

/-- The classification loop of `expand_variables`: build the
`iterative_vars` and `fixed_vars` dicts (in insertion order). -/
def partitionVarsD {α : Type} (d : VarValue → Disp α)
    (vars : List (Str × VarValue)) :
    List (Str × List (α × α)) × List (Str × α) :=
  vars.foldl
    (fun acc nv =>
      match d nv.2 with
      | .iter ps => (insertKV acc.1 nv.1 ps, acc.2)
      | .fixed v => (acc.1, insertKV acc.2 nv.1 v)
      | .drop => acc)
    ([], [])

/-- One `for combo in combinations: for i, value in enumerate(...)` round:
extend every existing combination with every (value, path) pair of one
iterating variable. -/
def crossPairs {α : Type} (name : Str) (pairs : List (α × α))
    (combo : List (Str × α)) : List (List (Str × α)) :=
  pairs.map (fun vp => insertKV (insertKV combo name vp.1) (name ++ pathSuffix) vp.2)

/-- Concatenation of the per-combination extensions (the
`new_combinations` accumulation loop). -/
def joinMap {α β : Type} (f : α → List β) : List α → List β
  | [] => []
  | a :: as => f a ++ joinMap f as

/-- Fold every iterating variable, in declaration order, into the
running list of combinations. -/
def expandIters {α : Type} :
    List (Str × List (α × α)) → List (List (Str × α)) → List (List (Str × α))
  | [], combos => combos
  | (n, ps) :: rest, combos => expandIters rest (joinMap (crossPairs n ps) combos)

/-- `expand_variables`, generically over the dispatch: partition, expand
the iterating variables starting from one empty combination, then copy
every fixed variable into every combination. -/
def expandVarsD {α : Type} (d : VarValue → Disp α)
    (vars : List (Str × VarValue)) : List (List (Str × α)) :=
  (expandIters (partitionVarsD d vars).1 [[]]).map
    (fun c => insertAllKV c (partitionVarsD d vars).2)

/-- `ERROR: Could not read file <path>` (the exception text is not part
of the fixed value in the source either — it only goes to the UI). -/
def errReadMsg (path : Str) : Str := "ERROR: Could not read file ".toList ++ path

/-- `No files found in <path>`. -/
def noFilesMsg (path : Str) : Str := "No files found in ".toList ++ path

/-! ## src/app3.py -/

namespace App3

/-- Classify one scanned value (the body of the
`parse_variable_definitions` loop in src/app3.py): the `$$` dispatch with
its three special forms, else quote-stripped literal.  A value starting
with `$$` that matches no complete special form falls through the
`if/elif` chain without any assignment — it is dropped (`none`). -/
def classifyValue (v : Str) : Option VarValue :=
  if ddStr.isPrefixOf v then
    if ddFile.isPrefixOf v ∧ endsWithL v cpStr then
      some (.file (pyStrip ((v.drop 7).dropLast)))
    else if ddDir.isPrefixOf v ∧ endsWithL v cpStr then
      some (.dir (parseDirPayload (pyStrip ((v.drop 6).dropLast))).1
                 (parseDirPayload (pyStrip ((v.drop 6).dropLast))).2)
    else if ddList.isPrefixOf v ∧ endsWithL v cpStr then
      some (.list (jsonListPayload (pyStrip ((v.drop 7).dropLast))))
    else none
  else some (.str (stripQuotes v))

/-- Build the `variables` dict from the scanned (name, value) pairs. -/
def buildVars (pairs : List (Str × Str)) : List (Str × VarValue) :=
  pairs.foldl
    (fun acc nv =>
      match classifyValue nv.2 with
      | some w => insertKV acc nv.1 w
      | none => acc)
    []

/-- `parse_variable_definitions` of src/app3.py. -/
def parse_variable_definitions (var_definitions : Str) : List (Str × VarValue) :=
  buildVars (scanDefs var_definitions)

/-- The `if/elif` chain classifying one parsed value inside
`expand_variables` of src/app3.py.  Only the dict types `file`, `dir`
and `list` are handled; any other dict type falls through without an
assignment (src/app3.py never produces one, but the chain has no final
`else` for dicts). -/
def dispatch (fs : FS) : VarValue → Disp Str
  | .file p =>
    .fixed (match fs.read p with
            | some c => c
            | none => errReadMsg p)
  | .dir p r =>
    if resolveDir fs p r = [] then .fixed (noFilesMsg p)
    else .iter (resolveDir fs p r)
  | .list es => .iter (es.map (fun e => (e, e)))
  | .str s => .fixed s
  | .results _ => .drop
  | .initialPrompt => .drop

/-- `expand_variables` of src/app3.py. -/
def expand_variables (fs : FS) (vars : List (Str × VarValue)) :
    List (List (Str × Str)) :=
  expandVarsD (dispatch fs) vars

/-- `render_template` of src/app3.py: substitute every non-`_path`
variable, then rewrite every remaining placeholder found by the regex to
the `UNDEFINED_VARIABLE_` sentinel. -/
def render_template (template : Str) (vars : List (Str × Str)) : Str :=
  (findPlaceholders
      (vars.foldl
        (fun r nv =>
          if endsWithL nv.1 pathSuffix then r else replaceAll r (holePat nv.1) nv.2)
        template)).foldl
    (fun r n => replaceAll r (holePat n) (undefinedMark n))
    (vars.foldl
      (fun r nv =>
        if endsWithL nv.1 pathSuffix then r else replaceAll r (holePat nv.1) nv.2)
      template)

end App3

/-! ## src/best_of_n.py -/

namespace BestOfN

/-- Classify one scanned value (src/best_of_n.py): like src/app3.py plus
the `$$results(...)` and `$$initial_prompt(...)` forms. -/
def classifyValue (v : Str) : Option VarValue :=
  if ddStr.isPrefixOf v then
    if ddFile.isPrefixOf v ∧ endsWithL v cpStr then
      some (.file (pyStrip ((v.drop 7).dropLast)))
    else if ddDir.isPrefixOf v ∧ endsWithL v cpStr then
      some (.dir (parseDirPayload (pyStrip ((v.drop 6).dropLast))).1
                 (parseDirPayload (pyStrip ((v.drop 6).dropLast))).2)
    else if ddList.isPrefixOf v ∧ endsWithL v cpStr then
      some (.list (jsonListPayload (pyStrip ((v.drop 7).dropLast))))
    else if ddResults.isPrefixOf v ∧ endsWithL v cpStr then
      some (.results (pyStrip ((v.drop 10).dropLast)))
    else if ddInitial.isPrefixOf v ∧ endsWithL v cpStr then
      some .initialPrompt
    else none
  else some (.str (stripQuotes v))

/-- Build the `variables` dict from the scanned (name, value) pairs. -/
def buildVars (pairs : List (Str × Str)) : List (Str × VarValue) :=
  pairs.foldl
    (fun acc nv =>
      match classifyValue nv.2 with
      | some w => insertKV acc nv.1 w
      | none => acc)
    []

/-- `parse_variable_definitions` of src/best_of_n.py. -/
def parse_variable_definitions (var_definitions : Str) : List (Str × VarValue) :=
  buildVars (scanDefs var_definitions)

/-- The `if/elif` chain classifying one parsed value inside
`expand_variables` of src/best_of_n.py.  Combination values here can be
plain strings or carried-through dicts, so the value type is `VarValue`.
`results` dicts are stored into `fixed_vars` unresolved; an
`initial_prompt` dict matches no branch of the chain and is dropped. -/
def dispatch (fs : FS) : VarValue → Disp VarValue
  | .file p =>
    .fixed (.str (match fs.read p with
                  | some c => c
                  | none => errReadMsg p))
  | .dir p r =>
    if resolveDir fs p r = [] then .fixed (.str (noFilesMsg p))
    else .iter ((resolveDir fs p r).map (fun cp => (.str cp.1, .str cp.2)))
  | .list es => .iter (es.map (fun e => (.str e, .str e)))
  | .str s => .fixed (.str s)
  | .results t => .fixed (.results t)
  | .initialPrompt => .drop

/-- `expand_variables` of src/best_of_n.py. -/
def expand_variables (fs : FS) (vars : List (Str × VarValue)) :
    List (List (Str × VarValue)) :=
  expandVarsD (dispatch fs) vars

/-- `render_template` of src/best_of_n.py: substitute every non-`_path`
variable whose value is not a dict, then rewrite every remaining
placeholder found by the regex to the `UNDEFINED_VARIABLE_` sentinel. -/
def render_template (template : Str) (vars : List (Str × VarValue)) : Str :=
  (findPlaceholders
      (vars.foldl
        (fun r nv =>
          match nv.2 with
          | .str s =>
            if endsWithL nv.1 pathSuffix then r else replaceAll r (holePat nv.1) s
          | _ => r)
        template)).foldl
    (fun r n => replaceAll r (holePat n) (undefinedMark n))
    (vars.foldl
      (fun r nv =>
        match nv.2 with
        | .str s =>
          if endsWithL nv.1 pathSuffix then r else replaceAll r (holePat nv.1) s
        | _ => r)
      template)

/-- The XML-like blocks built for a `results` variable, starting at
1-based index `i`: `<tag i>\n output \n</tag i>\n` per output. -/
def xmlOutputsFrom (tag : Str) (i : Nat) : List Str → Str
  | [] => []
  | o :: os =>
    ('<' :: (tag ++ Nat.toDigits 10 i) ++ ['>', '\n']) ++ o ++
      ('\n' :: '<' :: '/' :: (tag ++ Nat.toDigits 10 i) ++ ['>', '\n']) ++
      xmlOutputsFrom tag (i + 1) os

/-- All output blocks for a `results` variable (`enumerate(outputs, 1)`). -/
def xmlOutputs (tag : Str) (outputs : List Str) : Str := xmlOutputsFrom tag 1 outputs

/-- `process_special_variables` of src/best_of_n.py: substitute the
placeholders of `results` and `initial_prompt` variables; everything else
is left untouched. -/
def process_special_variables (template : Str) (vars : List (Str × VarValue))
    (initial_prompt : Str) (outputs : List Str) : Str :=
  vars.foldl
    (fun result nv =>
      match nv.2 with
      | .results t => replaceAll result (holePat nv.1) (xmlOutputs t outputs)
      | .initialPrompt => replaceAll result (holePat nv.1) initial_prompt
      | _ => result)
    template

/-- The inline error string produced when a model call raises. -/
def llmErrMsg (e : Str) : Str := "Error calling LLM: ".toList ++ e

/-- The sequential call loop inside the single `try` of `batch_call_llm`:
issue `remaining` calls starting at index `i`; the first raised error
aborts the whole loop. -/
def batchLoop (call : Nat → Except Str Str) : Nat → Nat → Except Str (List Str)
  | 0, _ => .ok []
  | remaining + 1, i =>
    match call i with
    | .ok r =>
      match batchLoop call remaining (i + 1) with
      | .ok rest => .ok (r :: rest)
      | .error e => .error e
    | .error e => .error e

/-- `batch_call_llm` of src/best_of_n.py: run the loop inside one `try`;
on any exception the `except` returns the error string repeated
`num_runs` times. -/
def batch_call_llm (call : Nat → Except Str Str) (num_runs : Nat) : List Str :=
  match batchLoop call num_runs 0 with
  | .ok rs => rs
  | .error e => List.replicate num_runs (llmErrMsg e)

end BestOfN

/-! ## The session logger (src/app3.py `log_session`)

The XML document is modelled structurally: `log_session` parses the
existing document at the path (a missing or unparseable file yields a
fresh empty root), appends one `session` element built from the session
data, and writes the document back.  The serialize / re-parse round trip
on the structured document is treated as the identity. -/

/-- One entry of `session_data["inputs"]`. -/
structure InputData where
  vars : List (Str × Str)
  prompt : Str
  output : Str
deriving DecidableEq

/-- The `session_data` dict of src/app3.py. -/
structure SessionData where
  llm_params : List (Str × Str)
  inputs : List InputData
deriving DecidableEq

/-- One logged `input<i>` element: the `_path` variable texts, the
`llm_parameters` children (one per non-credential parameter), the
rendered prompt text and the output text. -/
structure InputElem where
  pathVarTexts : List (Str × Str)
  paramElems : List (Str × Str)
  promptText : Str
  outputText : Str
deriving DecidableEq

/-- One `session` element: the `datetime` attribute and the `input<i>`
children. -/
structure SessionElem where
  datetimeAttr : Str
  inputElems : List InputElem
deriving DecidableEq

/-- The `sessions` root: its `session` children in document order. -/
abbrev LogDoc := List SessionElem

/-- The credential parameter name. -/
def apiKeyName : Str := "api_key".toList

/-- Build the `session` element appended by `log_session` of src/app3.py:
per input, the variables ending in `_path`, the parameters with
`api_key` skipped, the prompt and the output. -/
def buildSessionElem (timestamp : Str) (d : SessionData) : SessionElem :=
  { datetimeAttr := timestamp
  , inputElems :=
      d.inputs.map
        (fun inp =>
          { pathVarTexts := inp.vars.filter (fun nv => endsWithL nv.1 pathSuffix)
          , paramElems := d.llm_params.filter (fun p => ¬ (p.1 = apiKeyName))
          , promptText := inp.prompt
          , outputText := inp.output }) }

/-- A store of parseable log documents by path: `store p = none` models a
missing file or one that `ET.parse` rejects. -/
def LogStore := Str → Option LogDoc

/-- `log_session` of src/app3.py as a store transformer: read the
existing root (or start fresh), append the new session element, write the
whole document back to the same path. -/
def log_session (store : LogStore) (log_file : Str) (timestamp : Str)
    (session_data : SessionData) : LogStore :=
  fun p =>
    if p = log_file then
      some ((match store log_file with
             | some doc => doc
             | none => []) ++ [buildSessionElem timestamp session_data])
    else store p

/-- Every element text and attribute value of one `input<i>` subtree. -/
def collectTextsInput (ie : InputElem) : List Str :=
  ie.pathVarTexts.map Prod.snd ++ ie.paramElems.map Prod.snd ++
    [ie.promptText, ie.outputText]

/-- Every element text and attribute value of one `session` subtree. -/
def collectTextsSession (se : SessionElem) : List Str :=
  se.datetimeAttr :: (se.inputElems.map collectTextsInput).flatten

/-- Whether some element text or attribute value in the document
contains `secret` as a substring. -/
def docContains (doc : LogDoc) (secret : Str) : Bool :=
  doc.any (fun se => (collectTextsSession se).any (fun t => containsSub t secret))

/-! ## Structured templates for the renderer correctness theorem

A mixed-segment template is a concatenation of literal chunks and
complete placeholders.  `flattenM` is the actual template string handed
to `render_template`; the segments only classify its positions. -/

/-- One segment of a structured template. -/
inductive MSeg where
  | lit (s : Str)
  | hole (n : Str)
deriving DecidableEq

/-- The template string a segment list denotes. -/
def flattenM : List MSeg → Str
  | [] => []
  | MSeg.lit s :: rest => s ++ flattenM rest
  | MSeg.hole n :: rest => holePat n ++ flattenM rest

/-- No brace characters. -/
def braceFree (s : Str) : Prop := ∀ c ∈ s, c ≠ openBrace ∧ c ≠ closeBrace

/-- Well-formed segment: literal chunks are brace-free, placeholder
names are non-empty and brace-free. -/
def WFSeg : MSeg → Prop
  | MSeg.lit s => braceFree s
  | MSeg.hole n => n ≠ [] ∧ braceFree n

instance braceFreeDecidable (s : Str) : Decidable (braceFree s) :=
  inferInstanceAs (Decidable (∀ c ∈ s, c ≠ openBrace ∧ c ≠ closeBrace))

instance wfSegDecidable (seg : MSeg) : Decidable (WFSeg seg) :=
  match seg with
  | MSeg.lit s => inferInstanceAs (Decidable (braceFree s))
  | MSeg.hole n => inferInstanceAs (Decidable (n ≠ [] ∧ braceFree n))

/-- Replace the holes named `n` by the literal `v`. -/
def substHole (n v : Str) : MSeg → MSeg
  | MSeg.lit s => MSeg.lit s
  | MSeg.hole m => if m = n then MSeg.lit v else MSeg.hole m

/-- The binding the substitution loop uses for a placeholder name: the
first entry with that key, provided the key does not end in `_path`. -/
def findBinding (vars : List (Str × Str)) (m : Str) : Option Str :=
  match vars with
  | [] => none
  | kv :: rest =>
    if kv.1 = m ∧ endsWithL kv.1 pathSuffix = false then some kv.2
    else findBinding rest m

/-- The effect of the first renderer loop on one segment. -/
def substByVars (vars : List (Str × Str)) : MSeg → MSeg
  | MSeg.lit s => MSeg.lit s
  | MSeg.hole m =>
    match findBinding vars m with
    | some v => MSeg.lit v
    | none => MSeg.hole m

/-- The effect of the leftover-placeholder loop on one segment. -/
def substNs (ns : List Str) : MSeg → MSeg
  | MSeg.lit s => MSeg.lit s
  | MSeg.hole m => if m ∈ ns then MSeg.lit (undefinedMark m) else MSeg.hole m

/-- Full resolution of one segment: a bound (non-`_path`) placeholder
becomes its value, any other placeholder becomes the
`UNDEFINED_VARIABLE_` sentinel. -/
def resolveSegFull (vars : List (Str × Str)) : MSeg → MSeg
  | MSeg.lit s => MSeg.lit s
  | MSeg.hole m =>
    MSeg.lit (match findBinding vars m with
              | some v => v
              | none => undefinedMark m)

/-- The placeholder names of a segment list, in order. -/
def holeNames : List MSeg → List Str
  | [] => []
  | MSeg.lit _ :: rest => holeNames rest
  | MSeg.hole n :: rest => n :: holeNames rest

/-- A filesystem oracle with no readable files and no directory entries
(the example pipelines below touch no file). -/
def fsEmpty : FS := ⟨fun _ => none, fun _ _ => []⟩

/-! # Lemmas -/

/-! ## Dict (association list) lemmas -/

theorem lookupC_insertKV_self {α : Type} (m : List (Str × α)) (k : Str) (v : α) :
    lookupC (insertKV m k v) k = some v := by
  induction m with
  | nil => simp [insertKV, lookupC]
  | cons hd tl ih =>
    obtain ⟨k0, v0⟩ := hd
    by_cases h : k0 = k
    · simp [insertKV, lookupC, h]
    · simp [insertKV, lookupC, h, ih]

theorem lookupC_insertKV_ne {α : Type} (m : List (Str × α)) (k k' : Str) (v : α)
    (h : k ≠ k') : lookupC (insertKV m k v) k' = lookupC m k' := by
  induction m with
  | nil => simp [insertKV, lookupC, h]
  | cons hd tl ih =>
    obtain ⟨k0, v0⟩ := hd
    by_cases h0 : k0 = k
    · subst h0
      simp [insertKV, lookupC, h]
    · simp only [insertKV, if_neg h0]
      by_cases h1 : k0 = k'
      · simp [lookupC, h1]
      · simp [lookupC, h1, ih]

theorem insertKV_not_mem_key {α : Type} (m : List (Str × α)) (k : Str) (v : α)
    (h : k ∉ m.map Prod.fst) : insertKV m k v = m ++ [(k, v)] := by
  induction m with
  | nil => simp [insertKV]
  | cons hd tl ih =>
    obtain ⟨k0, v0⟩ := hd
    simp only [List.map_cons, List.mem_cons] at h
    push_neg at h
    have hne : k0 ≠ k := fun he => h.1 he.symm
    simp only [insertKV, if_neg hne, List.cons_append]
    rw [ih h.2]

theorem insertAllKV_cons {α : Type} (c : List (Str × α)) (nv : Str × α)
    (rest : List (Str × α)) :
    insertAllKV c (nv :: rest) = insertAllKV (insertKV c nv.1 nv.2) rest := rfl

theorem lookupC_insertAllKV_not_mem {α : Type} (entries : List (Str × α))
    (c : List (Str × α)) (k : Str) (h : k ∉ entries.map Prod.fst) :
    lookupC (insertAllKV c entries) k = lookupC c k := by
  induction entries generalizing c with
  | nil => rfl
  | cons nv rest ih =>
    simp only [List.map_cons, List.mem_cons] at h
    push_neg at h
    rw [insertAllKV_cons, ih _ h.2, lookupC_insertKV_ne _ _ _ _ h.1.symm]

theorem lookupC_insertAllKV_mem {α : Type} (entries : List (Str × α))
    (c : List (Str × α)) (k : Str) (v : α)
    (hnd : (entries.map Prod.fst).Nodup) (hm : (k, v) ∈ entries) :
    lookupC (insertAllKV c entries) k = some v := by
  induction entries generalizing c with
  | nil => cases hm
  | cons nv rest ih =>
    simp only [List.map_cons, List.nodup_cons] at hnd
    rcases List.mem_cons.mp hm with heq | hmem
    · subst heq
      rw [insertAllKV_cons]
      rw [lookupC_insertAllKV_not_mem rest (insertKV c (k, v).1 (k, v).2) k hnd.1]
      exact lookupC_insertKV_self _ _ _
    · rw [insertAllKV_cons]
      exact ih (insertKV c nv.1 nv.2) hnd.2 hmem

/-! ## Fuel irrelevance and step equations for `replaceAll` -/

theorem replaceAllF_congr (f1 : Nat) : ∀ (f2 : Nat) (s pat rep : Str),
    s.length ≤ f1 → s.length ≤ f2 →
    replaceAllF f1 s pat rep = replaceAllF f2 s pat rep := by
  induction f1 with
  | zero =>
    intro f2 s pat rep h1 _
    have : s = [] := List.eq_nil_of_length_eq_zero (Nat.le_zero.mp h1)
    subst this
    cases f2 <;> rfl
  | succ fuel ih =>
    intro f2 s pat rep h1 h2
    match s with
    | [] => cases f2 <;> rfl
    | c :: t =>
      simp only [List.length_cons] at h1 h2
      match f2 with
      | 0 => omega
      | f2' + 1 =>
        simp only [replaceAllF]
        by_cases he : pat.isEmpty
        · simp [he]
        · simp only [he, if_false, Bool.false_eq_true]
          have hplen : 0 < pat.length :=
            List.length_pos.mpr (by simpa using he)
          by_cases hp : pat.isPrefixOf (c :: t)
          · simp only [hp, if_true]
            have hd : ((c :: t).drop pat.length).length ≤ fuel := by
              simp only [List.length_drop, List.length_cons]
              omega
            have hd2 : ((c :: t).drop pat.length).length ≤ f2' := by
              simp only [List.length_drop, List.length_cons]
              omega
            rw [ih f2' _ pat rep hd hd2]
          · simp only [hp, if_false, Bool.false_eq_true]
            rw [ih f2' t pat rep (by omega) (by omega)]

theorem replaceAll_nilstr (pat rep : Str) : replaceAll [] pat rep = [] := rfl

theorem replaceAll_head_match (s pat rep : Str) (hne : pat ≠ [])
    (hp : pat.isPrefixOf s = true) :
    replaceAll s pat rep = rep ++ replaceAll (s.drop pat.length) pat rep := by
  match s with
  | [] =>
    exfalso
    have hpre := List.isPrefixOf_iff_prefix.mp hp
    have hlen := hpre.length_le
    have hpos : 0 < pat.length := List.length_pos.mpr hne
    simp only [List.length_nil] at hlen
    omega
  | c :: t =>
    show replaceAllF (t.length + 1) (c :: t) pat rep = _
    have he : pat.isEmpty = false := by simpa using hne
    have hplen : 0 < pat.length := List.length_pos.mpr hne
    simp only [replaceAllF, he, if_false, Bool.false_eq_true, hp, if_true]
    congr 1
    apply replaceAllF_congr
    · simp only [List.length_drop, List.length_cons]
      omega
    · exact le_refl _

theorem replaceAll_head_mismatch (c : Char) (t pat rep : Str)
    (hp : pat.isPrefixOf (c :: t) = false) :
    replaceAll (c :: t) pat rep = c :: replaceAll t pat rep := by
  have hne : pat ≠ [] := by
    intro h
    subst h
    simp [List.isPrefixOf] at hp
  have he : pat.isEmpty = false := by simpa using hne
  show replaceAllF (t.length + 1) (c :: t) pat rep = _
  simp only [replaceAllF, he, hp, if_false, Bool.false_eq_true]
  rfl

/-- If the pattern occurs nowhere in `s` (as an `isPrefixOf` at any suffix),
`replace` is the identity.  Stated via: the pattern is not a prefix of any
suffix of `s`. -/
theorem replaceAll_no_occurrence (s pat rep : Str)
    (h : ∀ t2 : Str, t2 <:+ s → pat.isPrefixOf t2 = false) :
    replaceAll s pat rep = s := by
  induction s with
  | nil => rfl
  | cons c t ih =>
    rw [replaceAll_head_mismatch c t pat rep (h (c :: t) (List.suffix_refl _))]
    rw [ih (fun t2 ht2 => h t2 (ht2.trans (List.suffix_cons c t)))]

/-! ## Fuel irrelevance and step equations for `findPlaceholders` -/

theorem findPlaceholdersF_congr (f1 : Nat) : ∀ (f2 : Nat) (s : Str),
    s.length ≤ f1 → s.length ≤ f2 → findPlaceholdersF f1 s = findPlaceholdersF f2 s := by
  induction f1 with
  | zero =>
    intro f2 s h1 _
    have hs : s = [] := List.eq_nil_of_length_eq_zero (Nat.le_zero.mp h1)
    subst hs
    cases f2 <;> rfl
  | succ fuel ih =>
    intro f2 s h1 h2
    match s with
    | [] => cases f2 <;> rfl
    | [c] => cases f2 <;> rfl
    | c :: c2 :: rest2 =>
      simp only [List.length_cons] at h1 h2
      match f2 with
      | 0 => omega
      | f2' + 1 =>
        simp only [findPlaceholdersF]
        by_cases hb : c = openBrace ∧ c2 = openBrace
        · rw [if_pos hb, if_pos hb]
          by_cases hmm : (rest2.takeWhile (fun d => d != closeBrace)) ≠ [] ∧
              ((rest2.drop (rest2.takeWhile (fun d => d != closeBrace)).length).take 2 =
                [closeBrace, closeBrace])
          · rw [if_pos hmm, if_pos hmm]
            have hlen : (((rest2.drop
                (rest2.takeWhile (fun d => d != closeBrace)).length)).drop 2).length ≤
                rest2.length := by
              simp only [List.length_drop]
              omega
            rw [ih f2' _ (by omega) (by omega)]
          · rw [if_neg hmm, if_neg hmm]
            exact ih f2' (c2 :: rest2) (by simp; omega) (by simp; omega)
        · rw [if_neg hb, if_neg hb]
          exact ih f2' (c2 :: rest2) (by simp; omega) (by simp; omega)

theorem findPlaceholders_skip (c c2 : Char) (rest2 : Str)
    (h : ¬(c = openBrace ∧ c2 = openBrace)) :
    findPlaceholders (c :: c2 :: rest2) = findPlaceholders (c2 :: rest2) := by
  show findPlaceholdersF (rest2.length + 1 + 1) (c :: c2 :: rest2) = _
  simp only [findPlaceholdersF]
  rw [if_neg h]
  rfl

theorem findPlaceholders_fail (c c2 : Char) (rest2 : Str)
    (hb : c = openBrace ∧ c2 = openBrace)
    (hf : ¬((rest2.takeWhile (fun d => d != closeBrace)) ≠ [] ∧
      ((rest2.drop (rest2.takeWhile (fun d => d != closeBrace)).length).take 2 =
        [closeBrace, closeBrace]))) :
    findPlaceholders (c :: c2 :: rest2) = findPlaceholders (c2 :: rest2) := by
  show findPlaceholdersF (rest2.length + 1 + 1) (c :: c2 :: rest2) = _
  simp only [findPlaceholdersF]
  rw [if_pos hb, if_neg hf]
  rfl

theorem findPlaceholders_match (rest2 : Str)
    (hrun : rest2.takeWhile (fun d => d != closeBrace) ≠ [])
    (htake : (rest2.drop (rest2.takeWhile (fun d => d != closeBrace)).length).take 2 =
      [closeBrace, closeBrace]) :
    findPlaceholders (openBrace :: openBrace :: rest2) =
      (rest2.takeWhile (fun d => d != closeBrace)) ::
        findPlaceholders
          ((rest2.drop (rest2.takeWhile (fun d => d != closeBrace)).length).drop 2) := by
  show findPlaceholdersF (rest2.length + 1 + 1) (openBrace :: openBrace :: rest2) = _
  simp only [findPlaceholdersF, eq_self_iff_true, and_self, if_true]
  rw [if_pos ⟨hrun, htake⟩]
  congr 1
  apply findPlaceholdersF_congr
  · simp only [List.length_drop]
    omega
  · exact le_refl _

/-! ## The batch-call loop -/

theorem batchLoop_error_of_first (call : Nat → Except Str Str) (e : Str) :
    ∀ (remaining i j : Nat), j < remaining →
      (∀ l, l < j → ∃ r, call (i + l) = Except.ok r) →
      call (i + j) = Except.error e →
      BestOfN.batchLoop call remaining i = Except.error e := by
  intro remaining
  induction remaining with
  | zero => intro i j hj _ _; omega
  | succ rem ih =>
    intro i j hj hok he
    match j with
    | 0 =>
      simp only [Nat.add_zero] at he
      simp [BestOfN.batchLoop, he]
    | j' + 1 =>
      obtain ⟨r, hr⟩ := hok 0 (by omega)
      simp only [Nat.add_zero] at hr
      have hrec : BestOfN.batchLoop call rem (i + 1) = Except.error e := by
        apply ih (i + 1) j' (by omega)
        · intro l hl
          obtain ⟨r2, hr2⟩ := hok (l + 1) (by omega)
          exact ⟨r2, by rw [← hr2]; congr 1; omega⟩
        · rw [← he]; congr 1; omega
      simp [BestOfN.batchLoop, hr, hrec]

/-! # Claim theorems -/

/-- C2: writing session A and then session B to the same log path yields a
document containing both, with the element for A the same element that the
first write produced (and, in general, the second write extends exactly
the document the first write left: nothing previously written is
dropped).  The XML serialize / re-parse round trip is abstracted as the
identity on the structured document. -/
theorem log_session_append_preserves (store : LogStore) (path ts1 ts2 : Str)
    (A B : SessionData) :
    log_session store path ts1 A path =
      some ((match store path with | some doc => doc | none => []) ++
        [buildSessionElem ts1 A])
    ∧ log_session (log_session store path ts1 A) path ts2 B path =
      some ((match store path with | some doc => doc | none => []) ++
        [buildSessionElem ts1 A, buildSessionElem ts2 B])
    ∧ buildSessionElem ts1 A ∈
        ((match store path with | some doc => doc | none => []) ++
          [buildSessionElem ts1 A, buildSessionElem ts2 B])
    ∧ buildSessionElem ts2 B ∈
        ((match store path with | some doc => doc | none => []) ++
          [buildSessionElem ts1 A, buildSessionElem ts2 B]) := by
  refine ⟨by simp [log_session], ?_, ?_, ?_⟩
  · simp [log_session]
  · cases store path <;> simp
  · cases store path <;> simp

/-- C7: `$$results(Output)` with prior outputs x, y, z resolves to one
XML-like block per output, in order, with the 1-based index appended to
the tag name, and `process_special_variables` substitutes exactly that
string for the placeholder of the results variable. -/
theorem process_results_three_outputs (ip : Str) :
    BestOfN.xmlOutputs "Output".toList ["x".toList, "y".toList, "z".toList] =
      ("<Output1>\nx\n</Output1>\n<Output2>\ny\n</Output2>\n<Output3>\nz\n</Output3>\n").toList
    ∧ BestOfN.process_special_variables "\x7b\x7boutputs\x7d\x7d".toList
        [("outputs".toList, VarValue.results "Output".toList)] ip
        ["x".toList, "y".toList, "z".toList] =
      ("<Output1>\nx\n</Output1>\n<Output2>\ny\n</Output2>\n<Output3>\nz\n</Output3>\n").toList :=
  ⟨by decide, rfl⟩


/-- C1 (the spec example fails on the code): parsing
`topic="water", n=$$list(["a","b"])` does NOT bind `n` at all — the value
regex group `[^,]+` cuts the value at the comma inside the list, leaving
`$$list(["a"`, which then fails the closing-parenthesis check of the
`$$list(` branch and is silently dropped.  Expansion therefore yields
exactly one combination (not two), and rendering `\x7b\x7btopic\x7d\x7d-\x7b\x7bn\x7d\x7d`
yields `water-UNDEFINED_VARIABLE_n` (never `water-a` / `water-b`). -/
theorem list_example_parse_expand_render_eval :
    App3.parse_variable_definitions ("topic=\"water\", n=$$list([\"a\",\"b\"])").toList =
      [("topic".toList, VarValue.str "water".toList)]
    ∧ App3.expand_variables fsEmpty
        (App3.parse_variable_definitions ("topic=\"water\", n=$$list([\"a\",\"b\"])").toList) =
      [[("topic".toList, "water".toList)]]
    ∧ App3.render_template "\x7b\x7btopic\x7d\x7d-\x7b\x7bn\x7d\x7d".toList
        [("topic".toList, "water".toList)] =
      "water-UNDEFINED_VARIABLE_n".toList
    ∧ (App3.expand_variables fsEmpty
        (App3.parse_variable_definitions ("topic=\"water\", n=$$list([\"a\",\"b\"])").toList)).length
      ≠ 2 := by
  refine ⟨by decide, by decide, by decide, by decide⟩

/-- C3 counterexample: with two sequential calls where the first succeeds
with `x` and the second raises `boom`, `batch_call_llm` returns the error
string for BOTH requests — the successful sibling result is discarded,
contradicting the claim that a failure produces an inline error string
for that request only and leaves the other requests unaffected. -/
theorem batch_error_discards_sibling_counterexample :
    (fun i => if i = 0 then Except.ok "x".toList else Except.error "boom".toList) 0 =
      Except.ok "x".toList
    ∧ BestOfN.batch_call_llm
        (fun i => if i = 0 then Except.ok "x".toList else Except.error "boom".toList) 2 =
      [BestOfN.llmErrMsg "boom".toList, BestOfN.llmErrMsg "boom".toList]
    ∧ (BestOfN.batch_call_llm
        (fun i => if i = 0 then Except.ok "x".toList else Except.error "boom".toList) 2).head? ≠
      some "x".toList := by
  refine ⟨rfl, by decide, by decide⟩

/-- C3 amended: the repeated-run loop sits inside a single `try`, so the
FIRST failing call aborts the remaining calls and the whole result list
becomes `num_runs` copies of that failure's error string; sibling results
(including already-computed successes) are all replaced. -/
theorem batch_call_llm_first_error_replicates (call : Nat → Except Str Str)
    (n j : Nat) (e : Str) (hj : j < n)
    (hok : ∀ l, l < j → ∃ r, call l = Except.ok r)
    (he : call j = Except.error e) :
    BestOfN.batch_call_llm call n = List.replicate n (BestOfN.llmErrMsg e) := by
  unfold BestOfN.batch_call_llm
  rw [batchLoop_error_of_first call e n 0 j hj
    (fun l hl => by simpa using hok l hl) (by simpa using he)]

/-- Witness for the C3 amended theorem at a concrete input. -/
theorem batch_call_llm_first_error_replicates_witness :
    (1 < 3
      ∧ (∀ l, l < 1 → ∃ r,
          (fun i => if i = 0 then Except.ok "x".toList else Except.error "boom".toList) l =
            Except.ok r)
      ∧ (fun i => if i = 0 then Except.ok "x".toList else Except.error "boom".toList) 1 =
          Except.error "boom".toList)
    ∧ BestOfN.batch_call_llm
        (fun i => if i = 0 then Except.ok "x".toList else Except.error "boom".toList) 3 =
      List.replicate 3 (BestOfN.llmErrMsg "boom".toList) :=
  ⟨⟨by decide, fun l hl => ⟨"x".toList, by interval_cases l; rfl⟩, rfl⟩,
    batch_call_llm_first_error_replicates _ 3 1 _ (by decide)
      (fun l hl => ⟨"x".toList, by interval_cases l; rfl⟩) rfl⟩

/-- If a scanned value starts with `$$` and does not end with `)`, every
special-form branch of the App3 classifier fails and the value is
dropped. -/
theorem app3_classify_none_of_no_close (v : Str)
    (h1 : ddStr.isPrefixOf v = true) (h2 : endsWithL v cpStr = false) :
    App3.classifyValue v = none := by
  simp [App3.classifyValue, h1, h2]

/-- Folding the parser loop never binds `name` when every scanned pair
for `name` has a classifier that returns `none`. -/
theorem app3_buildVars_lookup_none (name : Str) :
    ∀ (pairs : List (Str × Str)) (acc : List (Str × VarValue)),
      (∀ nv ∈ pairs, nv.1 = name → App3.classifyValue nv.2 = none) →
      lookupC acc name = none →
      lookupC
        (pairs.foldl
          (fun a nv =>
            match App3.classifyValue nv.2 with
            | some w => insertKV a nv.1 w
            | none => a)
          acc) name = none := by
  intro pairs
  induction pairs with
  | nil => intro acc _ hacc; exact hacc
  | cons nv rest ih =>
    intro acc hall hacc
    simp only [List.foldl_cons]
    apply ih _ (fun nv2 hm hn => hall nv2 (List.mem_cons_of_mem _ hm) hn)
    cases hcl : App3.classifyValue nv.2 with
    | none => exact hacc
    | some w =>
      by_cases hn : nv.1 = name
      · rw [hall nv (List.mem_cons_self _ _) hn] at hcl
        cases hcl
      · rw [lookupC_insertKV_ne _ _ _ _ hn]
        exact hacc

/-- C4 amended: the parser itself is a total function (it raises
nothing), but a scanned value that begins with `$$` and lacks its closing
parenthesis is NOT bound as a literal — the `if/elif` chain of the `$$`
branch falls through without any assignment, so the name is absent from
the output mapping (unless some other definition binds it). -/
theorem missing_close_paren_value_dropped (s name : Str)
    (hall : ∀ nv ∈ scanDefs s, nv.1 = name →
      ddStr.isPrefixOf nv.2 = true ∧ endsWithL nv.2 cpStr = false) :
    lookupC (App3.parse_variable_definitions s) name = none := by
  unfold App3.parse_variable_definitions App3.buildVars
  exact app3_buildVars_lookup_none name (scanDefs s) []
    (fun nv hm hn =>
      app3_classify_none_of_no_close nv.2 (hall nv hm hn).1 (hall nv hm hn).2)
    rfl

/-- Witness for the C4 amended theorem at a concrete input. -/
theorem missing_close_paren_value_dropped_witness :
    (∀ nv ∈ scanDefs "x=$$file(abc".toList, nv.1 = "x".toList →
      ddStr.isPrefixOf nv.2 = true ∧ endsWithL nv.2 cpStr = false)
    ∧ lookupC (App3.parse_variable_definitions "x=$$file(abc".toList) "x".toList = none :=
  ⟨by decide, missing_close_paren_value_dropped "x=$$file(abc".toList "x".toList (by decide)⟩

/-- C4 counterexample: for the definitions string `x=$$file(abc` (a
special form missing its closing parenthesis) the claim asserts that `x`
is bound to the literal `$$file(abc`; in fact the parser output contains
no binding at all. -/
theorem missing_close_paren_counterexample :
    App3.parse_variable_definitions "x=$$file(abc".toList = []
    ∧ lookupC (App3.parse_variable_definitions "x=$$file(abc".toList) "x".toList ≠
      some (VarValue.str "$$file(abc".toList) := by
  refine ⟨by decide, by decide⟩

/-! ## Structure of the expander -/

/-- The iterating entries produced by the classification loop, in
declaration order (the `iterative_vars` dict, assuming distinct keys). -/
def itersOf {α : Type} (d : VarValue → Disp α) :
    List (Str × VarValue) → List (Str × List (α × α))
  | [] => []
  | nv :: rest =>
    match d nv.2 with
    | .iter ps => (nv.1, ps) :: itersOf d rest
    | _ => itersOf d rest

/-- The fixed entries produced by the classification loop, in declaration
order (the `fixed_vars` dict, assuming distinct keys). -/
def fixedOf {α : Type} (d : VarValue → Disp α) :
    List (Str × VarValue) → List (Str × α)
  | [] => []
  | nv :: rest =>
    match d nv.2 with
    | .fixed v => (nv.1, v) :: fixedOf d rest
    | _ => fixedOf d rest

/-- The product of the iterating value-list sizes. -/
def prodSizes {α : Type} (iters : List (Str × List (α × α))) : Nat :=
  (iters.map (fun it => it.2.length)).prod

theorem itersOf_keys_sublist {α : Type} (d : VarValue → Disp α)
    (vars : List (Str × VarValue)) :
    ((itersOf d vars).map Prod.fst).Sublist (vars.map Prod.fst) := by
  induction vars with
  | nil => simp [itersOf]
  | cons nv rest ih =>
    simp only [itersOf, List.map_cons]
    cases d nv.2 with
    | iter ps => exact List.Sublist.cons₂ _ ih
    | fixed v => exact List.Sublist.cons _ ih
    | drop => exact List.Sublist.cons _ ih

theorem fixedOf_keys_sublist {α : Type} (d : VarValue → Disp α)
    (vars : List (Str × VarValue)) :
    ((fixedOf d vars).map Prod.fst).Sublist (vars.map Prod.fst) := by
  induction vars with
  | nil => simp [fixedOf]
  | cons nv rest ih =>
    simp only [fixedOf, List.map_cons]
    cases d nv.2 with
    | iter ps => exact List.Sublist.cons _ ih
    | fixed v => exact List.Sublist.cons₂ _ ih
    | drop => exact List.Sublist.cons _ ih

theorem mem_fixedOf_of_mem {α : Type} (d : VarValue → Disp α)
    (vars : List (Str × VarValue)) (k : Str) (v : VarValue) (fv : α)
    (hm : (k, v) ∈ vars) (hd : d v = .fixed fv) :
    (k, fv) ∈ fixedOf d vars := by
  induction vars with
  | nil => cases hm
  | cons nv rest ih =>
    rcases List.mem_cons.mp hm with heq | hmem
    · subst heq
      simp only [fixedOf]
      rw [hd]
      exact List.mem_cons_self _ _
    · simp only [fixedOf]
      cases d nv.2 with
      | iter ps => exact ih hmem
      | fixed w => exact List.mem_cons_of_mem _ (ih hmem)
      | drop => exact ih hmem

/-- Under distinct keys, an entry that the dispatch drops contributes to
neither the iterating nor the fixed entries. -/
theorem dropped_not_in_parts {α : Type} (d : VarValue → Disp α)
    (vars : List (Str × VarValue)) (k : Str) (v : VarValue)
    (hnd : (vars.map Prod.fst).Nodup) (hm : (k, v) ∈ vars) (hd : d v = .drop) :
    k ∉ (itersOf d vars).map Prod.fst ∧ k ∉ (fixedOf d vars).map Prod.fst := by
  induction vars with
  | nil => cases hm
  | cons nv rest ih =>
    simp only [List.map_cons, List.nodup_cons] at hnd
    rcases List.mem_cons.mp hm with heq | hmem
    · subst heq
      simp only [itersOf, fixedOf]
      rw [hd]
      constructor
      · intro hk
        exact hnd.1 ((itersOf_keys_sublist d rest).mem hk)
      · intro hk
        exact hnd.1 ((fixedOf_keys_sublist d rest).mem hk)
    · have hkne : nv.1 ≠ k := by
        intro he
        exact hnd.1 (he ▸ (List.mem_map.mpr ⟨(k, v), hmem, rfl⟩))
      obtain ⟨ih1, ih2⟩ := ih hnd.2 hmem
      simp only [itersOf, fixedOf]
      cases d nv.2 with
      | iter ps =>
        refine ⟨?_, ih2⟩
        simp only [List.map_cons, List.mem_cons]
        rintro (he | hk)
        · exact hkne he.symm
        · exact ih1 hk
      | fixed w =>
        refine ⟨ih1, ?_⟩
        simp only [List.map_cons, List.mem_cons]
        rintro (he | hk)
        · exact hkne he.symm
        · exact ih2 hk
      | drop => exact ⟨ih1, ih2⟩

/-- The classification fold, started from a pair of dicts whose keys are
disjoint from the remaining variable names (all distinct), appends the
direct recursions `itersOf` / `fixedOf`. -/
theorem partition_go {α : Type} (d : VarValue → Disp α) :
    ∀ (vars : List (Str × VarValue))
      (acc : List (Str × List (α × α)) × List (Str × α)),
      (∀ k ∈ vars.map Prod.fst,
        k ∉ acc.1.map Prod.fst ∧ k ∉ acc.2.map Prod.fst) →
      (vars.map Prod.fst).Nodup →
      vars.foldl
        (fun acc nv =>
          match d nv.2 with
          | .iter ps => (insertKV acc.1 nv.1 ps, acc.2)
          | .fixed v => (acc.1, insertKV acc.2 nv.1 v)
          | .drop => acc)
        acc =
      (acc.1 ++ itersOf d vars, acc.2 ++ fixedOf d vars) := by
  intro vars
  induction vars with
  | nil =>
    intro acc _ _
    simp only [List.foldl_nil, itersOf, fixedOf, List.append_nil]
  | cons nv rest ih =>
    intro acc hdisj hnd
    simp only [List.map_cons, List.nodup_cons] at hnd
    have hnv := hdisj nv.1 (by simp only [List.map_cons]; exact List.mem_cons_self _ _)
    simp only [List.foldl_cons, itersOf, fixedOf]
    cases hd : d nv.2 with
    | iter ps =>
      rw [ih (insertKV acc.1 nv.1 ps, acc.2) ?_ hnd.2]
      · rw [insertKV_not_mem_key acc.1 nv.1 ps hnv.1]
        simp [List.append_assoc]
      · intro k hk
        have hk2 := hdisj k (List.mem_cons_of_mem _ hk)
        refine ⟨?_, hk2.2⟩
        rw [insertKV_not_mem_key acc.1 nv.1 ps hnv.1]
        simp only [List.map_append, List.mem_append, List.map_cons, List.map_nil]
        rintro (h | h)
        · exact hk2.1 h
        · simp only [List.mem_singleton] at h
          exact hnd.1 (h ▸ hk)
    | fixed v =>
      rw [ih (acc.1, insertKV acc.2 nv.1 v) ?_ hnd.2]
      · rw [insertKV_not_mem_key acc.2 nv.1 v hnv.2]
        simp [List.append_assoc]
      · intro k hk
        have hk2 := hdisj k (List.mem_cons_of_mem _ hk)
        refine ⟨hk2.1, ?_⟩
        rw [insertKV_not_mem_key acc.2 nv.1 v hnv.2]
        simp only [List.map_append, List.mem_append, List.map_cons, List.map_nil]
        rintro (h | h)
        · exact hk2.2 h
        · simp only [List.mem_singleton] at h
          exact hnd.1 (h ▸ hk)
    | drop =>
      exact ih acc (fun k hk => hdisj k (List.mem_cons_of_mem _ hk)) hnd.2

/-- Under distinct keys, the partition computed by the fold is exactly
(`itersOf`, `fixedOf`). -/
theorem partitionVarsD_eq {α : Type} (d : VarValue → Disp α)
    (vars : List (Str × VarValue)) (hnd : (vars.map Prod.fst).Nodup) :
    partitionVarsD d vars = (itersOf d vars, fixedOf d vars) := by
  unfold partitionVarsD
  rw [partition_go d vars ([], [])
    (fun k _ => ⟨List.not_mem_nil k, List.not_mem_nil k⟩) hnd]
  simp only [List.nil_append]

theorem joinMap_length_const {α β : Type} (f : α → List β) (k : Nat)
    (l : List α) (h : ∀ a ∈ l, (f a).length = k) :
    (joinMap f l).length = l.length * k := by
  induction l with
  | nil => simp [joinMap]
  | cons a as ih =>
    simp only [joinMap, List.length_append, List.length_cons]
    rw [h a (List.mem_cons_self _ _), ih (fun a2 hm => h a2 (List.mem_cons_of_mem _ hm))]
    ring

theorem crossPairs_length {α : Type} (name : Str) (pairs : List (α × α))
    (combo : List (Str × α)) : (crossPairs name pairs combo).length = pairs.length := by
  simp [crossPairs]

theorem expandIters_length {α : Type} (iters : List (Str × List (α × α))) :
    ∀ combos : List (List (Str × α)),
      (expandIters iters combos).length = combos.length * prodSizes iters := by
  induction iters with
  | nil => intro combos; simp [expandIters, prodSizes]
  | cons it rest ih =>
    intro combos
    obtain ⟨n, ps⟩ := it
    simp only [expandIters]
    rw [ih]
    rw [joinMap_length_const (crossPairs n ps) ps.length combos
      (fun c _ => crossPairs_length n ps c)]
    simp only [prodSizes, List.map_cons, List.prod_cons]
    ring

theorem mem_joinMap {α β : Type} (f : α → List β) (l : List α) (b : β)
    (h : b ∈ joinMap f l) : ∃ a ∈ l, b ∈ f a := by
  induction l with
  | nil => cases h
  | cons a as ih =>
    simp only [joinMap, List.mem_append] at h
    rcases h with h | h
    · exact ⟨a, List.mem_cons_self _ _, h⟩
    · obtain ⟨a2, hm, hb⟩ := ih h
      exact ⟨a2, List.mem_cons_of_mem _ hm, hb⟩

/-- The name-avoidance invariant of the cross-product loop: if a key is
distinct from every iterating name and from every `_path` companion name,
it remains unbound in every produced combination. -/
theorem expandIters_lookup_none {α : Type} (k : Str) :
    ∀ (iters : List (Str × List (α × α))) (combos : List (List (Str × α))),
      (∀ it ∈ iters, it.1 ≠ k ∧ it.1 ++ pathSuffix ≠ k) →
      (∀ c ∈ combos, lookupC c k = none) →
      ∀ c ∈ expandIters iters combos, lookupC c k = none := by
  intro iters
  induction iters with
  | nil => intro combos _ hc c hm; exact hc c hm
  | cons it rest ih =>
    intro combos hnames hc c hm
    obtain ⟨n, ps⟩ := it
    simp only [expandIters] at hm
    refine ih _ (fun it2 hm2 => hnames it2 (List.mem_cons_of_mem _ hm2)) ?_ c hm
    intro c2 hc2
    obtain ⟨c0, hc0, hc2m⟩ := mem_joinMap _ _ _ hc2
    simp only [crossPairs, List.mem_map] at hc2m
    obtain ⟨vp, _, hc2e⟩ := hc2m
    have hn := hnames (n, ps) (List.mem_cons_self _ _)
    rw [← hc2e, lookupC_insertKV_ne _ _ _ _ hn.2, lookupC_insertKV_ne _ _ _ _ hn.1]
    exact hc c0 hc0

/-- Inserting entries with fresh, distinct keys is plain concatenation. -/
theorem insertAllKV_all_new {α : Type} (entries : List (Str × α)) :
    ∀ c : List (Str × α),
      (∀ k ∈ entries.map Prod.fst, k ∉ c.map Prod.fst) →
      (entries.map Prod.fst).Nodup →
      insertAllKV c entries = c ++ entries := by
  induction entries with
  | nil => intro c _ _; simp [insertAllKV]
  | cons nv rest ih =>
    intro c hnew hnd
    simp only [List.map_cons, List.nodup_cons] at hnd
    rw [insertAllKV_cons]
    rw [ih (insertKV c nv.1 nv.2) ?_ hnd.2]
    · rw [insertKV_not_mem_key c nv.1 nv.2
        (hnew nv.1 (by simp only [List.map_cons]; exact List.mem_cons_self _ _))]
      simp [List.append_assoc]
    · intro k hk
      rw [insertKV_not_mem_key c nv.1 nv.2
        (hnew nv.1 (by simp only [List.map_cons]; exact List.mem_cons_self _ _))]
      simp only [List.map_append, List.mem_append, List.map_cons, List.map_nil]
      rintro (h | h)
      · exact hnew k (by simp only [List.map_cons]; exact List.mem_cons_of_mem _ hk) h
      · simp only [List.mem_singleton] at h
        exact hnd.1 (h ▸ hk)

/-- C5: for any parsed mapping (distinct names, as the parser guarantees),
the expander produces exactly the product of the iterating value-list
sizes as its combination count; every produced combination contains every
fixed entry with its value unchanged; and with no iterating variables
exactly one combination is produced, consisting of exactly the fixed
variables. -/
theorem expander_product_and_fixed_entries (fs : FS) (vars : List (Str × VarValue))
    (hnd : (vars.map Prod.fst).Nodup) :
    (App3.expand_variables fs vars).length =
      prodSizes (itersOf (App3.dispatch fs) vars)
    ∧ (∀ combo ∈ App3.expand_variables fs vars,
        ∀ nv ∈ fixedOf (App3.dispatch fs) vars, lookupC combo nv.1 = some nv.2)
    ∧ (itersOf (App3.dispatch fs) vars = [] →
        App3.expand_variables fs vars = [fixedOf (App3.dispatch fs) vars]) := by
  have hfnd : ((fixedOf (App3.dispatch fs) vars).map Prod.fst).Nodup :=
    hnd.sublist (fixedOf_keys_sublist _ _)
  unfold App3.expand_variables expandVarsD
  rw [partitionVarsD_eq _ _ hnd]
  refine ⟨?_, ?_, ?_⟩
  · simp only [List.length_map]
    have := expandIters_length (itersOf (App3.dispatch fs) vars)
      ([[]] : List (List (Str × Str)))
    simpa using this
  · intro combo hcombo nv hnv
    simp only [List.mem_map] at hcombo
    obtain ⟨c0, _, hce⟩ := hcombo
    rw [← hce]
    exact lookupC_insertAllKV_mem _ c0 nv.1 nv.2 hfnd hnv
  · intro hno
    rw [hno]
    simp only [expandIters, List.map_cons, List.map_nil]
    rw [insertAllKV_all_new _ [] (fun k _ => List.not_mem_nil k) hfnd]
    simp

/-- Witness for C5 at a concrete input: one literal and one two-element
list variable give two combinations, both containing the fixed entry. -/
theorem expander_product_and_fixed_entries_witness :
    ((([("a".toList, VarValue.str "1".toList),
        ("l".toList, VarValue.list ["x".toList, "y".toList])] :
          List (Str × VarValue)).map Prod.fst).Nodup)
    ∧ ((App3.expand_variables fsEmpty
          [("a".toList, VarValue.str "1".toList),
           ("l".toList, VarValue.list ["x".toList, "y".toList])]).length =
        prodSizes (itersOf (App3.dispatch fsEmpty)
          [("a".toList, VarValue.str "1".toList),
           ("l".toList, VarValue.list ["x".toList, "y".toList])])
      ∧ (∀ combo ∈ App3.expand_variables fsEmpty
            [("a".toList, VarValue.str "1".toList),
             ("l".toList, VarValue.list ["x".toList, "y".toList])],
          ∀ nv ∈ fixedOf (App3.dispatch fsEmpty)
            [("a".toList, VarValue.str "1".toList),
             ("l".toList, VarValue.list ["x".toList, "y".toList])],
          lookupC combo nv.1 = some nv.2)
      ∧ (itersOf (App3.dispatch fsEmpty)
            [("a".toList, VarValue.str "1".toList),
             ("l".toList, VarValue.list ["x".toList, "y".toList])] = [] →
          App3.expand_variables fsEmpty
            [("a".toList, VarValue.str "1".toList),
             ("l".toList, VarValue.list ["x".toList, "y".toList])] =
          [fixedOf (App3.dispatch fsEmpty)
            [("a".toList, VarValue.str "1".toList),
             ("l".toList, VarValue.list ["x".toList, "y".toList])]])) :=
  ⟨by decide, expander_product_and_fixed_entries fsEmpty _ (by decide)⟩

theorem endsWithL_append_self (n p : Str) : endsWithL (n ++ p) p = true := by
  unfold endsWithL
  rw [List.reverse_append]
  exact List.isPrefixOf_iff_prefix.mpr (List.prefix_append _ _)

/-- C9: a `dir` variable whose resolved (content, path) list is empty
degrades to a fixed entry with the literal value `No files found in
<path>`; with no iterating variables at all, expansion still produces
exactly one combination carrying that value — not zero combinations. -/
theorem dir_empty_one_fixed_combination (fs : FS) (vars : List (Str × VarValue))
    (name path : Str) (rec : Bool)
    (hnd : (vars.map Prod.fst).Nodup)
    (hmem : (name, VarValue.dir path rec) ∈ vars)
    (hempty : resolveDir fs path rec = [])
    (hnoiter : itersOf (App3.dispatch fs) vars = []) :
    (App3.expand_variables fs vars).length = 1
    ∧ ∀ combo ∈ App3.expand_variables fs vars,
        lookupC combo name = some (noFilesMsg path) := by
  have hd : App3.dispatch fs (VarValue.dir path rec) = Disp.fixed (noFilesMsg path) := by
    simp [App3.dispatch, hempty]
  have hmemf : (name, noFilesMsg path) ∈ fixedOf (App3.dispatch fs) vars :=
    mem_fixedOf_of_mem _ _ _ _ _ hmem hd
  have hfnd : ((fixedOf (App3.dispatch fs) vars).map Prod.fst).Nodup :=
    hnd.sublist (fixedOf_keys_sublist _ _)
  unfold App3.expand_variables expandVarsD
  rw [partitionVarsD_eq _ _ hnd, hnoiter]
  constructor
  · simp [expandIters]
  · intro combo hcombo
    simp only [expandIters, List.map_cons, List.map_nil, List.mem_singleton] at hcombo
    subst hcombo
    exact lookupC_insertAllKV_mem _ _ _ _ hfnd hmemf

/-- Witness for C9 at a concrete input: a single `dir` variable on a
directory with no readable files yields exactly one combination with the
placeholder value. -/
theorem dir_empty_one_fixed_combination_witness :
    ((([("files".toList, VarValue.dir "./empty_folder".toList false)] :
        List (Str × VarValue)).map Prod.fst).Nodup
      ∧ ("files".toList, VarValue.dir "./empty_folder".toList false) ∈
          ([("files".toList, VarValue.dir "./empty_folder".toList false)] :
            List (Str × VarValue))
      ∧ resolveDir fsEmpty "./empty_folder".toList false = []
      ∧ itersOf (App3.dispatch fsEmpty)
          [("files".toList, VarValue.dir "./empty_folder".toList false)] = [])
    ∧ ((App3.expand_variables fsEmpty
          [("files".toList, VarValue.dir "./empty_folder".toList false)]).length = 1
      ∧ ∀ combo ∈ App3.expand_variables fsEmpty
            [("files".toList, VarValue.dir "./empty_folder".toList false)],
          lookupC combo "files".toList = some (noFilesMsg "./empty_folder".toList)) :=
  ⟨⟨by decide, by decide, by decide, by decide⟩,
    dir_empty_one_fixed_combination fsEmpty _ _ _ false
      (by decide) (by decide) (by decide) (by decide)⟩

/-- C8 amended: the best-of-N expander carries `results` entries through
unresolved, as fixed structured values present in every produced
combination — but `initial_prompt` entries match no branch of its
`if/elif` chain and are DROPPED: they are absent from every produced
combination. -/
theorem expand_results_carried_initial_prompt_dropped (fs : FS)
    (vars : List (Str × VarValue)) (nameR tR nameI : Str)
    (hnd : (vars.map Prod.fst).Nodup)
    (hR : (nameR, VarValue.results tR) ∈ vars)
    (hI : (nameI, VarValue.initialPrompt) ∈ vars)
    (hIpath : endsWithL nameI pathSuffix = false) :
    (∀ combo ∈ BestOfN.expand_variables fs vars,
      lookupC combo nameR = some (VarValue.results tR))
    ∧ (∀ combo ∈ BestOfN.expand_variables fs vars, lookupC combo nameI = none) := by
  have hfnd : ((fixedOf (BestOfN.dispatch fs) vars).map Prod.fst).Nodup :=
    hnd.sublist (fixedOf_keys_sublist _ _)
  have hmemf : (nameR, VarValue.results tR) ∈ fixedOf (BestOfN.dispatch fs) vars :=
    mem_fixedOf_of_mem _ _ _ _ _ hR rfl
  have hdropped := dropped_not_in_parts (BestOfN.dispatch fs) vars nameI
    VarValue.initialPrompt hnd hI rfl
  unfold BestOfN.expand_variables expandVarsD
  rw [partitionVarsD_eq _ _ hnd]
  constructor
  · intro combo hcombo
    simp only [List.mem_map] at hcombo
    obtain ⟨c0, _, hce⟩ := hcombo
    rw [← hce]
    exact lookupC_insertAllKV_mem _ c0 _ _ hfnd hmemf
  · intro combo hcombo
    simp only [List.mem_map] at hcombo
    obtain ⟨c0, hc0, hce⟩ := hcombo
    rw [← hce]
    rw [lookupC_insertAllKV_not_mem _ c0 nameI hdropped.2]
    refine expandIters_lookup_none nameI (itersOf (BestOfN.dispatch fs) vars) [[]]
      ?_ ?_ c0 hc0
    · intro it hit
      constructor
      · intro he
        exact hdropped.1 (he ▸ List.mem_map.mpr ⟨it, hit, rfl⟩)
      · intro he
        rw [← he, endsWithL_append_self] at hIpath
        cases hIpath
    · intro c hc
      simp only [List.mem_singleton] at hc
      subst hc
      rfl

/-- Witness for the C8 amended theorem at a concrete input. -/
theorem expand_results_carried_initial_prompt_dropped_witness :
    ((([("ip".toList, VarValue.initialPrompt),
        ("r".toList, VarValue.results "T".toList)] :
          List (Str × VarValue)).map Prod.fst).Nodup
      ∧ ("r".toList, VarValue.results "T".toList) ∈
          ([("ip".toList, VarValue.initialPrompt),
            ("r".toList, VarValue.results "T".toList)] : List (Str × VarValue))
      ∧ ("ip".toList, VarValue.initialPrompt) ∈
          ([("ip".toList, VarValue.initialPrompt),
            ("r".toList, VarValue.results "T".toList)] : List (Str × VarValue))
      ∧ endsWithL "ip".toList pathSuffix = false)
    ∧ ((∀ combo ∈ BestOfN.expand_variables fsEmpty
          [("ip".toList, VarValue.initialPrompt),
           ("r".toList, VarValue.results "T".toList)],
        lookupC combo "r".toList = some (VarValue.results "T".toList))
      ∧ (∀ combo ∈ BestOfN.expand_variables fsEmpty
            [("ip".toList, VarValue.initialPrompt),
             ("r".toList, VarValue.results "T".toList)],
          lookupC combo "ip".toList = none)) :=
  ⟨⟨by decide, by decide, by decide, by decide⟩,
    expand_results_carried_initial_prompt_dropped fsEmpty _ _ _ _
      (by decide) (by decide) (by decide) (by decide)⟩

/-- C8 counterexample: a parsed mapping holding only an `initial_prompt`
entry expands to one combination that does NOT contain it — the entry is
lost, contradicting the claim that both `ResultsRef` and
`InitialPromptRef` entries are present (unresolved) in every produced
combination. -/
theorem expand_initial_prompt_lost_counterexample :
    BestOfN.expand_variables fsEmpty [("ip".toList, VarValue.initialPrompt)] = [[]]
    ∧ lookupC ((BestOfN.expand_variables fsEmpty
        [("ip".toList, VarValue.initialPrompt)]).headI) "ip".toList ≠
      some VarValue.initialPrompt := by
  refine ⟨by decide, by decide⟩

/-- C10 counterexample: the logger copies prompts and outputs into the
document verbatim, so a session whose rendered prompt happens to contain
the credential value produces a log document that contains the
credential — the claim ("never contains that credential value in any
element text or attribute") fails for such sessions. -/
theorem log_contains_credential_counterexample :
    lookupC [(apiKeyName, "SECRET".toList), ("model".toList, "m".toList)] apiKeyName =
      some "SECRET".toList
    ∧ log_session (fun _ => none) "log.xml".toList "now".toList
        ⟨[(apiKeyName, "SECRET".toList), ("model".toList, "m".toList)],
         [⟨[], "SECRET".toList, "ok".toList⟩]⟩ "log.xml".toList =
      some [buildSessionElem "now".toList
        ⟨[(apiKeyName, "SECRET".toList), ("model".toList, "m".toList)],
         [⟨[], "SECRET".toList, "ok".toList⟩]⟩]
    ∧ docContains
        [buildSessionElem "now".toList
          ⟨[(apiKeyName, "SECRET".toList), ("model".toList, "m".toList)],
           [⟨[], "SECRET".toList, "ok".toList⟩]⟩]
        "SECRET".toList = true := by
  refine ⟨by decide, by decide, by decide⟩

/-- C10 amended: the logger always omits the `api_key` parameter, so the
credential can only reach the log through the other logged fields.  If
the credential value occurs in no other logged field — no non-credential
parameter value, no prompt, no output, no `_path` variable text, and not
the timestamp — then the session element written to the document does
not contain it in any element text or attribute. -/
theorem log_session_element_omits_credential (ts : Str) (d : SessionData)
    (secret : Str)
    (hts : containsSub ts secret = false)
    (hparams : ∀ p ∈ d.llm_params, p.1 ≠ apiKeyName → containsSub p.2 secret = false)
    (hinputs : ∀ inp ∈ d.inputs,
      containsSub inp.prompt secret = false
      ∧ containsSub inp.output secret = false
      ∧ ∀ nv ∈ inp.vars, containsSub nv.2 secret = false) :
    docContains [buildSessionElem ts d] secret = false := by
  simp only [docContains, List.any_eq_false]
  intro se hse
  simp only [List.mem_singleton] at hse
  subst hse
  simp only [Bool.not_eq_true, List.any_eq_false]
  intro t ht
  simp only [collectTextsSession, buildSessionElem, List.mem_cons, List.mem_flatten,
    List.mem_map] at ht
  rcases ht with ht | ⟨texts, ⟨ie, ⟨inp, hinp, hie⟩, hte⟩, htm⟩
  · subst ht
    simp [hts]
  · rw [← hie] at hte
    rw [← hte] at htm
    simp only [collectTextsInput, List.mem_append, List.mem_map, List.mem_cons,
      List.mem_singleton] at htm
    obtain ⟨hp, ho, hv⟩ := hinputs inp hinp
    rcases htm with (⟨nv, hnv, hnve⟩ | ⟨p, hpm, hpe⟩) | (ht | ht | ht)
    · rw [← hnve]
      exact Bool.not_eq_true _ ▸ (by
        have hnv2 := List.mem_filter.mp hnv
        simpa using hv nv hnv2.1)
    · rw [← hpe]
      have hp2 := List.mem_filter.mp hpm
      have hpne : p.1 ≠ apiKeyName := by simpa using hp2.2
      simpa using hparams p hp2.1 hpne
    · rw [ht]
      simpa using hp
    · rw [ht]
      simpa using ho
    · cases ht
  

/-- Witness for the C10 amended theorem at a concrete input. -/
theorem log_session_element_omits_credential_witness :
    (containsSub "now".toList "SECRET".toList = false
      ∧ (∀ p ∈ ([(apiKeyName, "SECRET".toList), ("model".toList, "m".toList)] :
            List (Str × Str)), p.1 ≠ apiKeyName →
          containsSub p.2 "SECRET".toList = false)
      ∧ (∀ inp ∈ ([⟨[], "hello".toList, "ok".toList⟩] : List InputData),
          containsSub inp.prompt "SECRET".toList = false
          ∧ containsSub inp.output "SECRET".toList = false
          ∧ ∀ nv ∈ inp.vars, containsSub nv.2 "SECRET".toList = false))
    ∧ docContains
        [buildSessionElem "now".toList
          ⟨[(apiKeyName, "SECRET".toList), ("model".toList, "m".toList)],
           [⟨[], "hello".toList, "ok".toList⟩]⟩]
        "SECRET".toList = false :=
  ⟨⟨by decide, by decide, by decide⟩,
    log_session_element_omits_credential "now".toList
      ⟨[(apiKeyName, "SECRET".toList), ("model".toList, "m".toList)],
       [⟨[], "hello".toList, "ok".toList⟩]⟩
      "SECRET".toList (by decide) (by decide) (by decide)⟩

/-! ## Renderer correctness over structured templates -/

theorem isPrefixOf_cons_iff (a b : Char) (as bs : Str) :
    ((a :: as).isPrefixOf (b :: bs)) = true ↔ a = b ∧ as.isPrefixOf bs = true := by
  simp [List.isPrefixOf]

/-- A pattern starting with an opening brace matches nowhere inside a
chunk with no opening brace, so `replace` walks straight through. -/
theorem replaceAll_chunk_no_open (u pat rep : Str) (p' : Str)
    (hpat : pat = openBrace :: p') :
    ∀ s : Str, (∀ c ∈ s, c ≠ openBrace) →
      replaceAll (s ++ u) pat rep = s ++ replaceAll u pat rep := by
  intro s
  induction s with
  | nil => intro _; rfl
  | cons c t ih =>
    intro hs
    have hc : c ≠ openBrace := (hs c (List.mem_cons_self _ _))
    have hnp : pat.isPrefixOf (c :: (t ++ u)) = false := by
      subst hpat
      rw [Bool.eq_false_iff]
      intro hcontra
      exact hc ((isPrefixOf_cons_iff _ _ _ _).mp hcontra).1.symm
    rw [List.cons_append, replaceAll_head_mismatch c (t ++ u) pat rep hnp,
      ih (fun c2 hc2 => hs c2 (List.mem_cons_of_mem _ hc2)), List.cons_append]

/-- If `n ++ \x7d\x7d` is a prefix of `m ++ \x7d\x7d ++ r` and neither
name contains a closing brace, the names are equal. -/
theorem close_prefix_forces_eq (n : Str) :
    ∀ (m r : Str), (∀ c ∈ n, c ≠ closeBrace) → (∀ c ∈ m, c ≠ closeBrace) →
      ((n ++ [closeBrace, closeBrace]).isPrefixOf
        (m ++ [closeBrace, closeBrace] ++ r)) = true →
      n = m := by
  induction n with
  | nil =>
    intro m r _ hm h
    match m with
    | [] => rfl
    | c :: m' =>
      exfalso
      simp only [List.nil_append, List.cons_append] at h
      have := ((isPrefixOf_cons_iff _ _ _ _).mp h).1
      exact hm c (List.mem_cons_self _ _) this.symm
  | cons a n' ih =>
    intro m r hn hm h
    match m with
    | [] =>
      exfalso
      simp only [List.cons_append, List.nil_append] at h
      have := ((isPrefixOf_cons_iff _ _ _ _).mp h).1
      exact hn a (List.mem_cons_self _ _) this
    | c :: m' =>
      simp only [List.cons_append] at h
      obtain ⟨hac, h'⟩ := (isPrefixOf_cons_iff _ _ _ _).mp h
      have := ih m' r (fun c2 hc2 => hn c2 (List.mem_cons_of_mem _ hc2))
        (fun c2 hc2 => hm c2 (List.mem_cons_of_mem _ hc2)) (by simpa using h')
      rw [hac, this]

/-- `replace` with the pattern of hole `n` walks straight over the
rendering of a different hole `m`. -/
theorem replaceAll_hole_step (m n r v : Str)
    (hm : braceFree m) (hmne : m ≠ []) (hne : m ≠ n)
    (hn : ∀ c ∈ n, c ≠ closeBrace) :
    replaceAll (holePat m ++ r) (holePat n) v = holePat m ++ replaceAll r (holePat n) v := by
  have hshape : holePat m ++ r =
      openBrace :: openBrace :: (m ++ [closeBrace, closeBrace] ++ r) := by
    simp [holePat, List.append_assoc]
  have hstep1 : (holePat n).isPrefixOf
      (openBrace :: openBrace :: (m ++ [closeBrace, closeBrace] ++ r)) = false := by
    rw [Bool.eq_false_iff]
    intro hcontra
    unfold holePat at hcontra
    obtain ⟨_, hc2⟩ := (isPrefixOf_cons_iff _ _ _ _).mp hcontra
    obtain ⟨_, hc3⟩ := (isPrefixOf_cons_iff _ _ _ _).mp hc2
    exact hne ((close_prefix_forces_eq n m r hn (fun c hc => (hm c hc).2) hc3).symm)
  have hstep2 : (holePat n).isPrefixOf (openBrace :: (m ++ [closeBrace, closeBrace] ++ r)) =
      false := by
    rw [Bool.eq_false_iff]
    intro hcontra
    unfold holePat at hcontra
    obtain ⟨_, hc2⟩ := (isPrefixOf_cons_iff _ _ _ _).mp hcontra
    match m, hmne with
    | c0 :: m', _ =>
      simp only [List.cons_append] at hc2
      have := ((isPrefixOf_cons_iff _ _ _ _).mp hc2).1
      exact (hm c0 (List.mem_cons_self _ _)).1 this.symm
  rw [hshape, replaceAll_head_mismatch _ _ _ _ hstep1, replaceAll_head_mismatch _ _ _ _ hstep2]
  rw [replaceAll_chunk_no_open r (holePat n) v _ rfl (m ++ [closeBrace, closeBrace])
    ?hchunk]
  case hchunk =>
    intro c hc
    rcases List.mem_append.mp hc with hcm | hcb
    · exact (hm c hcm).1
    · rcases List.mem_cons.mp hcb with he | he
      · rw [he]; decide
      · simp only [List.mem_singleton] at he
        rw [he]; decide
  simp [holePat, List.append_assoc]

/-- One `replace` call substitutes exactly the holes named `n` of a
well-formed segment list. -/
theorem replaceAll_flattenM_subst (n v : Str) (hn : ∀ c ∈ n, c ≠ closeBrace) :
    ∀ ms : List MSeg, (∀ seg ∈ ms, WFSeg seg) →
      replaceAll (flattenM ms) (holePat n) v = flattenM (ms.map (substHole n v)) := by
  intro ms
  induction ms with
  | nil => intro _; rfl
  | cons seg rest ih =>
    intro hwf
    have hwseg := hwf seg (List.mem_cons_self _ _)
    have hwrest : ∀ seg2 ∈ rest, WFSeg seg2 :=
      fun seg2 hm => hwf seg2 (List.mem_cons_of_mem _ hm)
    match seg with
    | MSeg.lit s =>
      show replaceAll (s ++ flattenM rest) (holePat n) v = s ++ _
      rw [replaceAll_chunk_no_open (flattenM rest) (holePat n) v _ rfl s
        (fun c hc => (hwseg c hc).1)]
      rw [ih hwrest]
    | MSeg.hole m =>
      by_cases hmn : m = n
      · subst hmn
        show replaceAll (holePat m ++ flattenM rest) (holePat m) v = _
        have hpre : (holePat m).isPrefixOf (holePat m ++ flattenM rest) = true :=
          List.isPrefixOf_iff_prefix.mpr (List.prefix_append _ _)
        rw [replaceAll_head_match _ _ _ (by simp [holePat]) hpre]
        rw [List.drop_left]
        rw [ih hwrest]
        simp only [List.map_cons, substHole, if_pos rfl, flattenM]
      · show replaceAll (holePat m ++ flattenM rest) (holePat n) v = _
        rw [replaceAll_hole_step m n (flattenM rest) v
          hwseg.2 hwseg.1 hmn hn]
        rw [ih hwrest]
        simp only [List.map_cons, substHole, if_neg hmn, flattenM]

/-- The placeholder regex never fires inside a chunk with no opening
brace. -/
theorem findPlaceholders_chunk (u : Str) :
    ∀ s : Str, (∀ c ∈ s, c ≠ openBrace) →
      findPlaceholders (s ++ u) = findPlaceholders u := by
  intro s
  induction s with
  | nil => intro _; rfl
  | cons c t ih =>
    intro hs
    have hc : c ≠ openBrace := hs c (List.mem_cons_self _ _)
    match hd : t ++ u with
    | [] =>
      obtain ⟨ht, hu⟩ := List.append_eq_nil.mp hd
      rw [List.cons_append, hd, hu]
      rfl
    | c2 :: rest2 =>
      rw [List.cons_append, hd, findPlaceholders_skip c c2 rest2 (fun hand => hc hand.1),
        ← hd, ih (fun c3 hc3 => hs c3 (List.mem_cons_of_mem _ hc3))]

theorem takeWhile_all_append (p : Char → Bool) (u : Str) :
    ∀ s : Str, (∀ c ∈ s, p c = true) →
      (s ++ u).takeWhile p = s ++ u.takeWhile p := by
  intro s
  induction s with
  | nil => intro _; rfl
  | cons c t ih =>
    intro hs
    rw [List.cons_append, List.takeWhile_cons, if_pos (hs c (List.mem_cons_self _ _)),
      ih (fun c2 hc2 => hs c2 (List.mem_cons_of_mem _ hc2)), List.cons_append]

/-- The placeholder regex fires exactly once on a rendered hole, and
captures its name. -/
theorem findPlaceholders_hole (m u : Str) (hm : braceFree m) (hmne : m ≠ []) :
    findPlaceholders (holePat m ++ u) = m :: findPlaceholders u := by
  have hshape : holePat m ++ u =
      openBrace :: openBrace :: (m ++ ([closeBrace, closeBrace] ++ u)) := by
    simp [holePat, List.append_assoc]
  have hrun : (m ++ ([closeBrace, closeBrace] ++ u)).takeWhile
      (fun d => d != closeBrace) = m := by
    have h1 : ∀ c ∈ m, (fun d => d != closeBrace) c = true := by
      intro c hc
      simpa using (hm c hc).2
    rw [takeWhile_all_append _ _ m h1]
    rw [List.cons_append, List.takeWhile_cons]
    simp
  rw [hshape, findPlaceholders_match (m ++ ([closeBrace, closeBrace] ++ u)) ?hne ?htake]
  case hne => rw [hrun]; exact hmne
  case htake =>
    rw [hrun, List.drop_left]
    rfl
  rw [hrun, List.drop_left]
  rfl

/-- On a well-formed segment list the leftover scan returns exactly the
hole names, in order. -/
theorem findPlaceholders_flattenM :
    ∀ ms : List MSeg, (∀ seg ∈ ms, WFSeg seg) →
      findPlaceholders (flattenM ms) = holeNames ms := by
  intro ms
  induction ms with
  | nil => intro _; rfl
  | cons seg rest ih =>
    intro hwf
    have hwseg := hwf seg (List.mem_cons_self _ _)
    have hwrest : ∀ seg2 ∈ rest, WFSeg seg2 :=
      fun seg2 hm => hwf seg2 (List.mem_cons_of_mem _ hm)
    match seg with
    | MSeg.lit s =>
      show findPlaceholders (s ++ flattenM rest) = _
      rw [findPlaceholders_chunk (flattenM rest) s (fun c hc => (hwseg c hc).1),
        ih hwrest]
      rfl
    | MSeg.hole m =>
      show findPlaceholders (holePat m ++ flattenM rest) = _
      rw [findPlaceholders_hole m (flattenM rest) hwseg.2 hwseg.1, ih hwrest]
      rfl

theorem substByVars_nil_id (seg : MSeg) : substByVars [] seg = seg := by
  cases seg <;> rfl

theorem substNs_nil_id (seg : MSeg) : substNs [] seg = seg := by
  cases seg <;> rfl

theorem map_substByVars_nil (ms : List MSeg) : ms.map (substByVars []) = ms := by
  induction ms with
  | nil => rfl
  | cons seg rest ih => simp [substByVars_nil_id, ih]

theorem map_substNs_nil (ms : List MSeg) : ms.map (substNs []) = ms := by
  induction ms with
  | nil => rfl
  | cons seg rest ih => simp [substNs_nil_id, ih]

theorem WFSeg_substHole (n v : Str) (hv : braceFree v) (seg : MSeg)
    (h : WFSeg seg) : WFSeg (substHole n v seg) := by
  cases seg with
  | lit s => exact h
  | hole m =>
    by_cases hmn : m = n
    · simpa [substHole, hmn] using hv
    · simpa [substHole, hmn] using h

theorem substByVars_cons_path (kv : Str × Str) (rest : List (Str × Str)) (seg : MSeg)
    (hpath : endsWithL kv.1 pathSuffix = true) :
    substByVars (kv :: rest) seg = substByVars rest seg := by
  cases seg with
  | lit s => rfl
  | hole m =>
    simp only [substByVars, findBinding]
    rw [if_neg (fun hand => by rw [hpath] at hand; cases hand.2)]

theorem substByVars_cons_nonpath (kv : Str × Str) (rest : List (Str × Str)) (seg : MSeg)
    (hpath : endsWithL kv.1 pathSuffix = false) :
    substByVars rest (substHole kv.1 kv.2 seg) = substByVars (kv :: rest) seg := by
  cases seg with
  | lit s => rfl
  | hole m =>
    by_cases hmk : m = kv.1
    · subst hmk
      simp [substHole, substByVars, findBinding, hpath]
    · simp only [substHole, if_neg hmk, substByVars, findBinding]
      rw [if_neg (fun hand => hmk hand.1.symm)]

theorem substNs_cons_step (n : Str) (rest : List Str) (seg : MSeg) :
    substNs rest (substHole n (undefinedMark n) seg) = substNs (n :: rest) seg := by
  cases seg with
  | lit s => rfl
  | hole m =>
    by_cases hmn : m = n
    · subst hmn
      simp [substHole, substNs]
    · simp only [substHole, if_neg hmn, substNs]
      by_cases hmem : m ∈ rest
      · rw [if_pos hmem, if_pos (List.mem_cons_of_mem _ hmem)]
      · rw [if_neg hmem, if_neg (by
          intro hc
          rcases List.mem_cons.mp hc with he | he
          · exact hmn he
          · exact hmem he)]

theorem undefinedMark_braceFree (n : Str) (hn : braceFree n) :
    braceFree (undefinedMark n) := by
  have hfix : ∀ c ∈ "UNDEFINED_VARIABLE_".toList, c ≠ openBrace ∧ c ≠ closeBrace := by
    decide
  intro c hc
  rcases List.mem_append.mp hc with hpre | hnm
  · exact hfix c hpre
  · exact hn c hnm

/-- The first renderer loop turns a well-formed segment list into the
same list with every bound (non-`_path`) hole replaced by its value. -/
theorem fold1_structured (vars : List (Str × Str)) :
    ∀ ms : List MSeg, (∀ seg ∈ ms, WFSeg seg) →
      (∀ kv ∈ vars, braceFree kv.1 ∧ braceFree kv.2) →
      vars.foldl
        (fun r nv =>
          if endsWithL nv.1 pathSuffix then r else replaceAll r (holePat nv.1) nv.2)
        (flattenM ms) =
      flattenM (ms.map (substByVars vars)) := by
  induction vars with
  | nil =>
    intro ms _ _
    rw [List.foldl_nil, map_substByVars_nil]
  | cons kv rest ih =>
    intro ms hwf hkeys
    have hkv := hkeys kv (List.mem_cons_self _ _)
    have hkrest : ∀ kv2 ∈ rest, braceFree kv2.1 ∧ braceFree kv2.2 :=
      fun kv2 hm => hkeys kv2 (List.mem_cons_of_mem _ hm)
    rw [List.foldl_cons]
    by_cases hpath : endsWithL kv.1 pathSuffix = true
    · rw [if_pos hpath, ih ms hwf hkrest]
      congr 1
      exact List.map_congr_left
        (fun seg _ => (substByVars_cons_path kv rest seg hpath).symm)
    · rw [if_neg hpath]
      rw [replaceAll_flattenM_subst kv.1 kv.2 (fun c hc => (hkv.1 c hc).2) ms hwf]
      rw [ih (ms.map (substHole kv.1 kv.2))
        (by
          intro seg hm
          obtain ⟨seg0, hm0, he⟩ := List.mem_map.mp hm
          rw [← he]
          exact WFSeg_substHole kv.1 kv.2 hkv.2 seg0 (hwf seg0 hm0))
        hkrest]
      rw [List.map_map]
      congr 1
      exact List.map_congr_left
        (fun seg _ => substByVars_cons_nonpath kv rest seg (Bool.eq_false_iff.mpr hpath))

/-- The leftover loop replaces every hole whose name it was given by the
`UNDEFINED_VARIABLE_` sentinel. -/
theorem fold2_structured (ns : List Str) :
    ∀ ms : List MSeg, (∀ seg ∈ ms, WFSeg seg) → (∀ n ∈ ns, braceFree n) →
      ns.foldl (fun r n => replaceAll r (holePat n) (undefinedMark n)) (flattenM ms) =
      flattenM (ms.map (substNs ns)) := by
  induction ns with
  | nil =>
    intro ms _ _
    rw [List.foldl_nil, map_substNs_nil]
  | cons n rest ih =>
    intro ms hwf hns
    have hn := hns n (List.mem_cons_self _ _)
    rw [List.foldl_cons]
    rw [replaceAll_flattenM_subst n (undefinedMark n) (fun c hc => (hn c hc).2) ms hwf]
    rw [ih (ms.map (substHole n (undefinedMark n)))
      (by
        intro seg hm
        obtain ⟨seg0, hm0, he⟩ := List.mem_map.mp hm
        rw [← he]
        exact WFSeg_substHole n (undefinedMark n) (undefinedMark_braceFree n hn)
          seg0 (hwf seg0 hm0))
      (fun n2 hm => hns n2 (List.mem_cons_of_mem _ hm))]
    rw [List.map_map]
    congr 1
    exact List.map_congr_left (fun seg _ => substNs_cons_step n rest seg)

theorem findBinding_mem (vars : List (Str × Str)) (m v : Str)
    (h : findBinding vars m = some v) : ∃ kv ∈ vars, kv.2 = v := by
  induction vars with
  | nil => cases h
  | cons kv rest ih =>
    simp only [findBinding] at h
    split at h
    · exact ⟨kv, List.mem_cons_self _ _, (Option.some.injEq _ _ ▸ h : kv.2 = v)⟩
    · obtain ⟨kv2, hm2, he2⟩ := ih h
      exact ⟨kv2, List.mem_cons_of_mem _ hm2, he2⟩

theorem WFSeg_substByVars (vars : List (Str × Str)) (seg : MSeg)
    (hkeys : ∀ kv ∈ vars, braceFree kv.1 ∧ braceFree kv.2)
    (h : WFSeg seg) : WFSeg (substByVars vars seg) := by
  cases seg with
  | lit s => exact h
  | hole m =>
    simp only [substByVars]
    cases hf : findBinding vars m with
    | none => exact h
    | some v =>
      obtain ⟨kv, hm2, he2⟩ := findBinding_mem vars m v hf
      show braceFree v
      rw [← he2]
      exact (hkeys kv hm2).2

theorem mem_holeNames_iff (n : Str) :
    ∀ ms : List MSeg, n ∈ holeNames ms ↔ MSeg.hole n ∈ ms := by
  intro ms
  induction ms with
  | nil => simp [holeNames]
  | cons seg rest ih =>
    cases seg with
    | lit s =>
      simp only [holeNames, List.mem_cons, ih]
      constructor
      · exact Or.inr
      · rintro (h | h)
        · cases h
        · exact h
    | hole m =>
      simp only [holeNames, List.mem_cons, ih]
      constructor
      · rintro (h | h)
        · exact Or.inl (by rw [h])
        · exact Or.inr h
      · rintro (h | h)
        · exact Or.inl (by cases h; rfl)
        · exact Or.inr h

theorem holeNames_wf (ms : List MSeg) (hwf : ∀ seg ∈ ms, WFSeg seg) :
    ∀ n ∈ holeNames ms, n ≠ [] ∧ braceFree n := by
  intro n hn
  exact hwf (MSeg.hole n) ((mem_holeNames_iff n ms).mp hn)

theorem flattenM_no_open (msf : List MSeg)
    (h : ∀ seg ∈ msf, ∃ s, seg = MSeg.lit s ∧ ∀ c ∈ s, c ≠ openBrace) :
    ∀ c ∈ flattenM msf, c ≠ openBrace := by
  induction msf with
  | nil => intro c hc; cases hc
  | cons seg rest ih =>
    intro c hc
    obtain ⟨s, hseg, hs⟩ := h seg (List.mem_cons_self _ _)
    subst hseg
    simp only [flattenM, List.mem_append] at hc
    rcases hc with hc | hc
    · exact hs c hc
    · exact ih (fun seg2 hm => h seg2 (List.mem_cons_of_mem _ hm)) c hc

/-- C6 amended: on a template that is a concatenation of brace-free
literal chunks and complete placeholders (non-empty brace-free names),
with a combination whose keys and scalar values are brace-free, the App3
renderer resolves every placeholder: a placeholder bound by a non-`_path`
key becomes exactly its value, every other placeholder becomes exactly
`UNDEFINED_VARIABLE_<name>`, and the rendered text contains no opening
brace at all (hence zero occurrences of the placeholder opener). -/
theorem render_template_structured (ms : List MSeg) (vars : List (Str × Str))
    (hms : ∀ seg ∈ ms, WFSeg seg)
    (hkeys : ∀ kv ∈ vars, braceFree kv.1 ∧ braceFree kv.2) :
    App3.render_template (flattenM ms) vars =
      flattenM (ms.map (resolveSegFull vars))
    ∧ ∀ c ∈ App3.render_template (flattenM ms) vars, c ≠ openBrace := by
  have hms1 : ∀ seg ∈ ms.map (substByVars vars), WFSeg seg := by
    intro seg hm
    obtain ⟨seg0, hm0, he⟩ := List.mem_map.mp hm
    rw [← he]
    exact WFSeg_substByVars vars seg0 hkeys (hms seg0 hm0)
  have h1 : vars.foldl
      (fun r nv =>
        if endsWithL nv.1 pathSuffix then r else replaceAll r (holePat nv.1) nv.2)
      (flattenM ms) = flattenM (ms.map (substByVars vars)) :=
    fold1_structured vars ms hms hkeys
  have hfind : findPlaceholders (flattenM (ms.map (substByVars vars))) =
      holeNames (ms.map (substByVars vars)) :=
    findPlaceholders_flattenM _ hms1
  have h2 : (holeNames (ms.map (substByVars vars))).foldl
      (fun r n => replaceAll r (holePat n) (undefinedMark n))
      (flattenM (ms.map (substByVars vars))) =
      flattenM ((ms.map (substByVars vars)).map
        (substNs (holeNames (ms.map (substByVars vars))))) :=
    fold2_structured _ _ hms1
      (fun n hn => (holeNames_wf _ hms1 n hn).2)
  have hfinal : (ms.map (substByVars vars)).map
      (substNs (holeNames (ms.map (substByVars vars)))) =
      ms.map (resolveSegFull vars) := by
    rw [List.map_map]
    apply List.map_congr_left
    intro seg hm
    cases seg with
    | lit s => rfl
    | hole m =>
      show substNs _ (substByVars vars (MSeg.hole m)) = _
      simp only [substByVars]
      cases hf : findBinding vars m with
      | some v => simp [substNs, resolveSegFull, hf]
      | none =>
        have hmem : m ∈ holeNames (ms.map (substByVars vars)) := by
          rw [mem_holeNames_iff]
          refine List.mem_map.mpr ⟨MSeg.hole m, hm, ?_⟩
          simp [substByVars, hf]
        simp [substNs, hmem, resolveSegFull, hf]
  have hrender : App3.render_template (flattenM ms) vars =
      flattenM (ms.map (resolveSegFull vars)) := by
    unfold App3.render_template
    rw [h1, hfind, h2, hfinal]
  refine ⟨hrender, ?_⟩
  rw [hrender]
  apply flattenM_no_open
  intro seg hm
  obtain ⟨seg0, hm0, he⟩ := List.mem_map.mp hm
  cases seg0 with
  | lit s =>
    exact ⟨s, by rw [← he]; rfl, fun c hc => ((hms _ hm0) c hc).1⟩
  | hole m =>
    cases hf : findBinding vars m with
    | some v =>
      refine ⟨v, by rw [← he]; simp [resolveSegFull, hf], ?_⟩
      obtain ⟨kv, hkv, he2⟩ := findBinding_mem vars m v hf
      intro c hc
      rw [← he2] at hc
      exact ((hkeys kv hkv).2 c hc).1
    | none =>
      refine ⟨undefinedMark m, by rw [← he]; simp [resolveSegFull, hf], ?_⟩
      intro c hc
      exact (undefinedMark_braceFree m ((hms _ hm0).2) c hc).1

/-- C6 counterexample: the template `\x7b\x7bx\x7d\x7d \x7b\x7b` has
exactly one placeholder, `x`, and `x` is a non-`_path` scalar key of the
combination — yet the rendered text still contains `\x7b\x7b` (the
trailing incomplete brace pair survives both loops), contradicting the
zero-occurrences part of the claim. -/
theorem render_stray_brace_counterexample :
    findPlaceholders "\x7b\x7bx\x7d\x7d \x7b\x7b".toList = ["x".toList]
    ∧ endsWithL "x".toList pathSuffix = false
    ∧ lookupC [("x".toList, "v".toList)] "x".toList = some "v".toList
    ∧ App3.render_template "\x7b\x7bx\x7d\x7d \x7b\x7b".toList
        [("x".toList, "v".toList)] = "v \x7b\x7b".toList
    ∧ containsSub
        (App3.render_template "\x7b\x7bx\x7d\x7d \x7b\x7b".toList
          [("x".toList, "v".toList)])
        [openBrace, openBrace] = true := by
  refine ⟨by decide, by decide, by decide, by decide, by decide⟩

/-- Witness for the C6 amended theorem at a concrete input: template
`t: \x7b\x7bx\x7d\x7d\x7b\x7by\x7d\x7d` with binding x := 1 renders to
`t: 1UNDEFINED_VARIABLE_y`, with no opening brace left. -/
theorem render_template_structured_witness :
    ((∀ seg ∈ [MSeg.lit "t: ".toList, MSeg.hole "x".toList, MSeg.hole "y".toList],
        WFSeg seg)
      ∧ (∀ kv ∈ ([("x".toList, "1".toList)] : List (Str × Str)),
          braceFree kv.1 ∧ braceFree kv.2))
    ∧ (App3.render_template
        (flattenM [MSeg.lit "t: ".toList, MSeg.hole "x".toList, MSeg.hole "y".toList])
        [("x".toList, "1".toList)] =
        flattenM
          ([MSeg.lit "t: ".toList, MSeg.hole "x".toList, MSeg.hole "y".toList].map
            (resolveSegFull [("x".toList, "1".toList)]))
      ∧ ∀ c ∈ App3.render_template
          (flattenM [MSeg.lit "t: ".toList, MSeg.hole "x".toList, MSeg.hole "y".toList])
          [("x".toList, "1".toList)], c ≠ openBrace) :=
  ⟨⟨by decide, by decide⟩,
    render_template_structured
      [MSeg.lit "t: ".toList, MSeg.hole "x".toList, MSeg.hole "y".toList]
      [("x".toList, "1".toList)] (by decide) (by decide)⟩
